import Mathlib

/-!
# go-hashset: the chained hash set of `hashSet.go`

A shallow embedding of the package `hashSet` (`types.go`, `hashSet.go`) and the
properties of its operations.

* `Comparable` is the interface of `types.go`: a hash code and an equality test,
  both supplied by the caller.  The methods are modelled as pure functions, so
  one element always reports the same hash code.  No law is assumed about
  `Equals` unless a theorem says so.
* `linkedEntry α` stands for the nullable pointer `*linkedEntry`: `[]` is the
  nil pointer and `data :: next` is a node holding `data` whose field `next` is
  the rest of the chain.  Nodes are never shared between chains (every node is
  allocated by `Add` and linked exactly once), so assigning to the field of a
  node is modelled by storing the rebuilt chain under the same key.
* `hashSet α` is the struct `hashSet`; its field `set` is the Go map
  `map[int]*linkedEntry`, a finite map from hash codes to chains.  The embedded
  `sync.RWMutex` is left out: every operation is modelled as one atomic step.
* A nil pointer dereference is a run-time panic in Go.  Operations that can
  reach one return an `Outcome`, which is either the returned value or
  `nilDereference`.  No operation writes to the map before it panics, and the
  deferred unlock runs, so a panicking call leaves the state as it was.
* `range` over the map visits the keys in ascending order, one of the orders Go
  allows; no theorem depends on which.
* `Reachable` are the states a caller can bring about.  `history` replays a run
  and keeps a ledger of the values handed in and not yet removed; the set of a
  run is always `hashSet.ofLedger` of its ledger.
-/

namespace GoHashSet

/-- The interface `Comparable` of `types.go`. -/
class Comparable (α : Type) where
  /-- `HashCode() int` -/
  HashCode : α → Int
  /-- `Equals(obj interface{}) bool`, the receiver first. -/
  Equals : α → α → Bool

export Comparable (HashCode Equals)

/-- The two error values of `hashSet.go`. -/
inductive SetError where
  | ErrEntryDoesNotExist
  | ErrEntryExistsAlready
  deriving DecidableEq, Repr

export SetError (ErrEntryDoesNotExist ErrEntryExistsAlready)

/-- How a call ends: it returns a value, or it panics on a nil pointer. -/
inductive Outcome (β : Type) where
  | returned (value : β)
  | nilDereference
  deriving DecidableEq, Repr

/-- The pointer type `*linkedEntry`: `[]` is nil, `data :: next` is a node. -/
abbrev linkedEntry (α : Type) := List α

/-- The struct `hashSet`: the map from hash codes to chains. -/
structure hashSet (α : Type) where
  set : Finmap (fun _ : Int => linkedEntry α)

instance instDecidableEqHashSet {α : Type} [DecidableEq α] : DecidableEq (hashSet α) :=
  fun a b => decidable_of_iff (a.set = b.set)
    ⟨fun h => by cases a; cases b; simp_all, fun h => by rw [h]⟩

/-- What a scan of one chain did: returned an error without writing, returned
nil after writing (the chain as it is afterwards), or panicked without writing. -/
inductive Scan (α : Type) where
  | fail (err : SetError)
  | done (chain : linkedEntry α)
  | nilDereference
  deriving DecidableEq, Repr

/-- The `for` loop of `Add` (lines 65-74), started at `existingEntry`. -/
def Add.loop {α : Type} [Comparable α] (entry : α) : linkedEntry α → Scan α
  | [] => .nilDereference
  | data :: next =>
    if Equals data entry then .fail ErrEntryExistsAlready
    else
      match next with
      | [] => .done (data :: [entry])
      | _ :: _ =>
        match Add.loop entry next with
        | .done chain => .done (data :: chain)
        | r => r

/-- `func (set *hashSet) Add(entry Comparable) error` -/
def Add {α : Type} [Comparable α] (set : hashSet α) (entry : α) :
    Outcome (Option SetError) × hashSet α :=
  let hashCode := HashCode entry
  match set.set.lookup hashCode with
  | none => (.returned none, ⟨set.set.insert hashCode [entry]⟩)
  | some existingEntry =>
    match Add.loop entry existingEntry with
    | .fail err => (.returned (some err), set)
    | .done chain => (.returned none, ⟨set.set.insert hashCode chain⟩)
    | .nilDereference => (.nilDereference, set)

/-- The `for` loop of `Remove` (lines 96-106), with `existingEntry` the node
`data :: next`.  It reads `existingEntry.next.data` before it tests
`existingEntry.next != nil`. -/
def Remove.loop {α : Type} [Comparable α] (entry : α) (data : α) : linkedEntry α → Scan α
  | [] => .nilDereference
  | nextData :: nextNext =>
    if Equals nextData entry then .done (data :: nextNext)
    else if !(nextData :: nextNext).isEmpty then
      match Remove.loop entry nextData nextNext with
      | .done chain => .done (data :: chain)
      | r => r
    else .fail ErrEntryDoesNotExist

/-- `func (set *hashSet) Remove(entry Comparable) error` -/
def Remove {α : Type} [Comparable α] (set : hashSet α) (entry : α) :
    Outcome (Option SetError) × hashSet α :=
  let hashCode := HashCode entry
  match set.set.lookup hashCode with
  | none => (.returned (some ErrEntryDoesNotExist), set)
  | some [] => (.nilDereference, set)
  | some (data :: next) =>
    if Equals data entry then
      match next with
      | [] => (.returned none, ⟨set.set.erase hashCode⟩)
      | _ :: _ => (.returned none, ⟨set.set.insert hashCode next⟩)
    else
      match Remove.loop entry data next with
      | .fail err => (.returned (some err), set)
      | .done chain => (.returned none, ⟨set.set.insert hashCode chain⟩)
      | .nilDereference => (.nilDereference, set)

/-- The `for` loop of `Contains` (lines 120-128), started at `existingEntry`. -/
def Contains.loop {α : Type} [Comparable α] (entry : α) : linkedEntry α → Outcome Bool
  | [] => .nilDereference
  | data :: next =>
    if Equals data entry then .returned true
    else
      match next with
      | [] => .returned false
      | _ :: _ => Contains.loop entry next

/-- `func (set *hashSet) Contains(entry Comparable) bool` -/
def Contains {α : Type} [Comparable α] (set : hashSet α) (entry : α) : Outcome Bool :=
  let hashCode := HashCode entry
  match set.set.lookup hashCode with
  | none => .returned false
  | some existingEntry => Contains.loop entry existingEntry

/-- `func (set *hashSet) IsEmpty() bool` -/
def IsEmpty {α : Type} (set : hashSet α) : Bool :=
  decide (set.set.keys.card ≤ 0)

/-- The chains in the order in which `range set.set` visits them.  Go leaves
the order unspecified; the model visits the keys in ascending order. -/
def hashSet.range {α : Type} (set : hashSet α) : List (linkedEntry α) :=
  (Quot.liftOn set.set.keys.val (List.insertionSort (· ≤ ·)) (fun _ _ h =>
    List.eq_of_perm_of_sorted
      ((List.perm_insertionSort _ _).trans (h.trans (List.perm_insertionSort _ _).symm))
      (List.sorted_insertionSort _ _) (List.sorted_insertionSort _ _))).filterMap
    (fun hashCode => set.set.lookup hashCode)

/-- The inner `for` loop of `Size` (lines 142-148), started at `entry`. -/
def Size.loop {α : Type} (size : Nat) : linkedEntry α → Outcome Nat
  | [] => .nilDereference
  | _ :: next =>
    match next with
    | [] => .returned (size + 1)
    | _ :: _ => Size.loop (size + 1) next

/-- One round of the outer `for ... range` loop of `Size`: the inner loop runs
unless an earlier round has panicked. -/
def Size.round {α : Type} (acc : Outcome Nat) (entry : linkedEntry α) : Outcome Nat :=
  match acc with
  | .returned size => Size.loop size entry
  | .nilDereference => .nilDereference

/-- `func (set *hashSet) Size() int` -/
def Size {α : Type} (set : hashSet α) : Outcome Nat :=
  set.range.foldl Size.round (.returned 0)

/-- The inner `for` loop of `ToSlice` (lines 158-164), started at `entry`. -/
def ToSlice.loop {α : Type} (all : List α) : linkedEntry α → Outcome (List α)
  | [] => .nilDereference
  | data :: next =>
    match next with
    | [] => .returned (all ++ [data])
    | _ :: _ => ToSlice.loop (all ++ [data]) next

/-- One round of the outer `for ... range` loop of `ToSlice`: the inner loop
runs unless an earlier round has panicked. -/
def ToSlice.round {α : Type} (acc : Outcome (List α)) (entry : linkedEntry α) :
    Outcome (List α) :=
  match acc with
  | .returned all => ToSlice.loop all entry
  | .nilDereference => .nilDereference

/-- `func (set *hashSet) ToSlice() []Comparable` -/
def ToSlice {α : Type} (set : hashSet α) : Outcome (List α) :=
  set.range.foldl ToSlice.round (.returned [])

/-- `func NewHashSet(entries ...Comparable) HashSet`: the entries are added in
order to an empty map and the result of each `Add` is discarded. -/
def NewHashSet {α : Type} [Comparable α] (entries : List α) : hashSet α :=
  entries.foldl (fun set entry => (Add set entry).2) ⟨∅⟩

/-- The states a caller can bring about: built by `NewHashSet`, then changed by
calls of `Add` and `Remove` (the read-only operations leave the state alone). -/
inductive Reachable {α : Type} [Comparable α] : hashSet α → Prop where
  | new (entries : List α) : Reachable (NewHashSet entries)
  | add {set : hashSet α} (entry : α) : Reachable set → Reachable (Add set entry).2
  | remove {set : hashSet α} (entry : α) : Reachable set → Reachable (Remove set entry).2

/-- Every chain in the map is a node, never the nil pointer. -/
def NoNilChain {α : Type} (set : hashSet α) : Prop :=
  ∀ hashCode : Int, set.set.lookup hashCode ≠ some []

/-- The element type of `hashSet_test.go`. -/
structure testComparable where
  id : Int
  sub : Int
  deriving DecidableEq, Repr

instance : Comparable testComparable where
  HashCode t := t.id
  Equals t cast := t.id == cast.id && t.sub == cast.sub

/-- The contract `types.go` and the package documentation ask of the caller:
`Equals` is an equivalence relation and equal elements have one hash code. -/
structure LawfulComparable (α : Type) [Comparable α] : Prop where
  refl : ∀ a : α, Equals a a = true
  symm : ∀ a b : α, Equals a b = true → Equals b a = true
  trans : ∀ a b c : α, Equals a b = true → Equals b c = true → Equals a c = true
  hashCode : ∀ a b : α, Equals a b = true → HashCode a = HashCode b

/-- Every element sits in the chain of its own hash code, and within a chain no
element equals a later one. -/
def UniqueChains {α : Type} [Comparable α] (set : hashSet α) : Prop :=
  ∀ (hashCode : Int) (chain : linkedEntry α), set.set.lookup hashCode = some chain →
    (∀ e ∈ chain, HashCode e = hashCode) ∧ chain.Pairwise (fun a b => Equals a b = false)

/-- One call of a method that writes: `Add(entry)` or `Remove(entry)`. -/
inductive Call (α : Type) where
  | add (entry : α)
  | remove (entry : α)

/-- A run of calls, with a ledger kept beside the set.  The ledger lists, oldest
first, the values handed in that are still held: a value is entered when its
`Add` returns nil, and when a `Remove(entry)` returns nil the oldest value `v`
on the ledger with `v.HashCode() == entry.HashCode()` and `v.Equals(entry)` is
struck off.  A call that does not return nil leaves the ledger alone. -/
def History.step {α : Type} [Comparable α] (state : hashSet α × List α) (call : Call α) :
    hashSet α × List α :=
  match call with
  | .add entry =>
    ((Add state.1 entry).2,
      if (Add state.1 entry).1 = .returned none then state.2 ++ [entry] else state.2)
  | .remove entry =>
    ((Remove state.1 entry).2,
      if (Remove state.1 entry).1 = .returned none then
        state.2.eraseP (fun v => HashCode v == HashCode entry && Equals v entry)
      else state.2)

/-- The set and the ledger after `NewHashSet(entries...)` followed by `calls`:
the constructor adds its arguments in order, then the calls are made in order. -/
def history {α : Type} [Comparable α] (entries : List α) (calls : List (Call α)) :
    hashSet α × List α :=
  calls.foldl History.step
    (entries.foldl (fun state entry => History.step state (.add entry)) (⟨∅⟩, []))

/-- The values of a ledger that have the given hash code, oldest first. -/
def bucket {α : Type} [Comparable α] (live : List α) (hashCode : Int) : List α :=
  live.filter (fun v => HashCode v == hashCode)

/-- The map that holds exactly the values of a ledger: each value in the chain of
its hash code, the chains in the order of the ledger. -/
def hashSet.ofLedger {α : Type} [Comparable α] (live : List α) : hashSet α :=
  live.foldl
    (fun set e => ⟨set.set.insert (HashCode e) ((set.set.lookup (HashCode e)).getD [] ++ [e])⟩)
    ⟨∅⟩

/-- The arguments of the constructor as the specification describes the result:
going through them in order, an argument that `Equals` one already kept is
dropped, any other is kept. -/
def keptEntries {α : Type} [Comparable α] (entries : List α) : List α :=
  entries.foldl
    (fun kept entry => if kept.any (fun r => Equals r entry) then kept else kept ++ [entry]) []

/-- The equivalence relation of a lawful `Equals`. -/
def LawfulComparable.setoid {α : Type} [Comparable α] (hlaw : LawfulComparable α) : Setoid α where
  r a b := Equals a b = true
  iseqv := ⟨hlaw.refl, fun h => hlaw.symm _ _ h, fun h g => hlaw.trans _ _ _ h g⟩

/-- The number of equivalence classes of a lawful `Equals` that the entries meet. -/
def classCount {α : Type} [Comparable α] (hlaw : LawfulComparable α) (entries : List α) : Nat :=
  (@List.dedup _
    (@Quotient.decidableEq α hlaw.setoid (fun a b => inferInstanceAs (Decidable (Equals a b = true))))
    (entries.map (Quotient.mk hlaw.setoid))).length

/-! ## The loops, in closed form -/

theorem Add_loop_cons {α : Type} [Comparable α] (entry data : α) (next : linkedEntry α) :
    Add.loop entry (data :: next) =
      if (data :: next).any (fun e => Equals e entry) then .fail ErrEntryExistsAlready
      else .done ((data :: next) ++ [entry]) := by
  induction next generalizing data with
  | nil => cases h : Equals data entry <;> simp [Add.loop, h]
  | cons d n ih =>
    cases h : Equals data entry
    · rw [Add.loop]
      simp only [h, Bool.false_eq_true, if_false, ih d, List.any_cons, Bool.false_or]
      by_cases hc : (Equals d entry || n.any fun e => Equals e entry) = true
      · simp only [hc, if_true]
      · simp [hc]
    · simp [Add.loop, h]

theorem Remove_loop_eq {α : Type} [Comparable α] (entry data : α) (next : linkedEntry α) :
    Remove.loop entry data next =
      if next.any (fun e => Equals e entry) then
        .done (data :: next.eraseP (fun e => Equals e entry))
      else .nilDereference := by
  induction next generalizing data with
  | nil => simp [Remove.loop]
  | cons d n ih =>
    cases h : Equals d entry
    · rw [Remove.loop]
      simp only [h, Bool.false_eq_true, if_false, ih d, List.any_cons, Bool.false_or,
        List.isEmpty_cons, Bool.not_false, if_true]
      by_cases hc : (n.any fun e => Equals e entry) = true
      · simp [hc, List.eraseP_cons, h]
      · simp [hc]
    · simp [Remove.loop, h]

theorem Contains_loop_cons {α : Type} [Comparable α] (entry data : α) (next : linkedEntry α) :
    Contains.loop entry (data :: next) =
      .returned ((data :: next).any (fun e => Equals e entry)) := by
  induction next generalizing data with
  | nil => cases h : Equals data entry <;> simp [Contains.loop, h]
  | cons d n ih =>
    cases h : Equals data entry
    · rw [Contains.loop]
      simp only [h, Bool.false_eq_true, if_false, ih d, List.any_cons, Bool.false_or]
    · simp [Contains.loop, h]

/-! ## The operations, by the chain found under the hash code -/

theorem Add_of_noChain {α : Type} [Comparable α] (set : hashSet α) (entry : α)
    (h : set.set.lookup (HashCode entry) = none) :
    Add set entry = (.returned none, ⟨set.set.insert (HashCode entry) [entry]⟩) := by
  simp [Add, h]

theorem Add_of_nil {α : Type} [Comparable α] (set : hashSet α) (entry : α)
    (h : set.set.lookup (HashCode entry) = some []) :
    Add set entry = (.nilDereference, set) := by
  simp [Add, h, Add.loop]

theorem Add_of_chain {α : Type} [Comparable α] (set : hashSet α) (entry data : α)
    (next : linkedEntry α) (h : set.set.lookup (HashCode entry) = some (data :: next)) :
    Add set entry =
      if (data :: next).any (fun e => Equals e entry) then
        (.returned (some ErrEntryExistsAlready), set)
      else (.returned none, ⟨set.set.insert (HashCode entry) ((data :: next) ++ [entry])⟩) := by
  simp only [Add, h, Add_loop_cons]
  by_cases hc : ((data :: next).any fun e => Equals e entry) = true
  · simp [hc]
  · simp [hc]

theorem Remove_of_noChain {α : Type} [Comparable α] (set : hashSet α) (entry : α)
    (h : set.set.lookup (HashCode entry) = none) :
    Remove set entry = (.returned (some ErrEntryDoesNotExist), set) := by
  simp [Remove, h]

theorem Remove_of_nil {α : Type} [Comparable α] (set : hashSet α) (entry : α)
    (h : set.set.lookup (HashCode entry) = some []) :
    Remove set entry = (.nilDereference, set) := by
  simp [Remove, h]

theorem Remove_of_chain {α : Type} [Comparable α] (set : hashSet α) (entry data : α)
    (next : linkedEntry α) (h : set.set.lookup (HashCode entry) = some (data :: next)) :
    Remove set entry =
      if (data :: next).any (fun e => Equals e entry) then
        (.returned none,
          if ((data :: next).eraseP (fun e => Equals e entry)).isEmpty then
            ⟨set.set.erase (HashCode entry)⟩
          else ⟨set.set.insert (HashCode entry)
            ((data :: next).eraseP (fun e => Equals e entry))⟩)
      else (.nilDereference, set) := by
  simp only [Remove, h, Remove_loop_eq]
  cases hd : Equals data entry
  · by_cases hc : (next.any fun e => Equals e entry) = true
    · simp [hc, hd, List.eraseP_cons]
    · simp [hc, hd]
  · cases next <;> simp [hd, List.eraseP_cons]

theorem Contains_of_noChain {α : Type} [Comparable α] (set : hashSet α) (entry : α)
    (h : set.set.lookup (HashCode entry) = none) :
    Contains set entry = .returned false := by
  simp [Contains, h]

theorem Contains_of_chain {α : Type} [Comparable α] (set : hashSet α) (entry data : α)
    (next : linkedEntry α) (h : set.set.lookup (HashCode entry) = some (data :: next)) :
    Contains set entry = .returned ((data :: next).any (fun e => Equals e entry)) := by
  simp only [Contains, h, Contains_loop_cons]

/-- The state after `Add` is the state before, or the map with one chain stored
under the entry's hash code; the stored chain is the old one (none: empty) with
the entry at its end, and no element of the old chain equals the entry. -/
theorem Add_state {α : Type} [Comparable α] (set : hashSet α) (entry : α) :
    (Add set entry).2 = set ∨
    ∃ chain : linkedEntry α,
      (set.set.lookup (HashCode entry) = none ∧ chain = [] ∨
        set.set.lookup (HashCode entry) = some chain) ∧
      (∀ e ∈ chain, Equals e entry = false) ∧
      (Add set entry).2 = ⟨set.set.insert (HashCode entry) (chain ++ [entry])⟩ := by
  rcases hl : set.set.lookup (HashCode entry) with _ | chain
  · exact Or.inr ⟨[], Or.inl ⟨rfl, rfl⟩, by simp, by rw [Add_of_noChain set entry hl]; rfl⟩
  · cases chain with
    | nil => exact Or.inl (by rw [Add_of_nil set entry hl])
    | cons data next =>
      rw [Add_of_chain set entry data next hl]
      by_cases hc : ((data :: next).any fun e => Equals e entry) = true
      · exact Or.inl (by rw [if_pos hc])
      · refine Or.inr ⟨data :: next, Or.inr rfl, ?_, by rw [if_neg hc]⟩
        intro e he
        cases hq : Equals e entry
        · rfl
        · exact absurd (List.any_eq_true.2 ⟨e, he, hq⟩) hc

/-- The state after `Remove` is the state before, or the map in which the chain
under the entry's hash code has lost one element: the key is deleted when
nothing is left, and the shorter chain is stored otherwise. -/
theorem Remove_state {α : Type} [Comparable α] (set : hashSet α) (entry : α) :
    (Remove set entry).2 = set ∨
    ∃ chain : linkedEntry α,
      set.set.lookup (HashCode entry) = some chain ∧
      (∃ e ∈ chain, Equals e entry = true) ∧
      (Remove set entry).2 =
        if (chain.eraseP (fun e => Equals e entry)).isEmpty then
          ⟨set.set.erase (HashCode entry)⟩
        else ⟨set.set.insert (HashCode entry) (chain.eraseP (fun e => Equals e entry))⟩ := by
  rcases hl : set.set.lookup (HashCode entry) with _ | chain
  · exact Or.inl (by rw [Remove_of_noChain set entry hl])
  · cases chain with
    | nil => exact Or.inl (by rw [Remove_of_nil set entry hl])
    | cons data next =>
      rw [Remove_of_chain set entry data next hl]
      by_cases hc : ((data :: next).any fun e => Equals e entry) = true
      · exact Or.inr ⟨data :: next, rfl, List.any_eq_true.1 hc, by rw [if_pos hc]⟩
      · exact Or.inl (by rw [if_neg hc])

/-! ## Reachable states -/

/-- A property of the empty set that `Add` and `Remove` preserve holds in every
reachable state. -/
theorem Reachable.invariant {α : Type} [Comparable α] (P : hashSet α → Prop)
    (hnew : P ⟨∅⟩) (hadd : ∀ set entry, P set → P (Add set entry).2)
    (hremove : ∀ set entry, P set → P (Remove set entry).2) :
    ∀ set : hashSet α, Reachable set → P set := by
  intro set h
  induction h with
  | new entries =>
    have hfold : ∀ (l : List α) (s : hashSet α), P s →
        P (l.foldl (fun set entry => (Add set entry).2) s) := by
      intro l
      induction l with
      | nil => intro s hs; exact hs
      | cons e l ih => intro s hs; exact ih _ (hadd s e hs)
    exact hfold entries _ hnew
  | add entry _ ih => exact hadd _ entry ih
  | remove entry _ ih => exact hremove _ entry ih

theorem Reachable.noNilChain {α : Type} [Comparable α] (set : hashSet α)
    (h : Reachable set) : NoNilChain set := by
  refine Reachable.invariant NoNilChain ?_ ?_ ?_ set h
  · intro k
    simp
  · intro s e hs k
    rcases Add_state s e with heq | ⟨chain, _, _, heq⟩
    · rw [heq]; exact hs k
    · rw [heq]
      by_cases hk : k = HashCode e
      · subst hk
        simp [Finmap.lookup_insert]
      · rw [Finmap.lookup_insert_of_ne _ hk]; exact hs k
  · intro s e hs k
    rcases Remove_state s e with heq | ⟨chain, _, _, heq⟩
    · rw [heq]; exact hs k
    · rw [heq]
      by_cases hk : k = HashCode e
      · subst hk
        cases hc : List.eraseP (fun x => Equals x e) chain with
        | nil => simp [Finmap.lookup_erase]
        | cons a l => simp [Finmap.lookup_insert]
      · split
        · rw [Finmap.lookup_erase_ne hk]; exact hs k
        · rw [Finmap.lookup_insert_of_ne _ hk]; exact hs k

/-! ## Add -/

/-- C1: in a state whose chains are nodes, `Add(entry)` returns
`ErrEntryExistsAlready` if and only if some element `e` of the chain stored
under `entry.HashCode()` satisfies `e.Equals(entry)`; in every other case (no
chain under that hash code, or a chain without an equal element) it returns
nil. -/
theorem Add_ErrEntryExistsAlready_iff {α : Type} [Comparable α] (set : hashSet α) (entry : α)
    (hset : NoNilChain set) :
    ((Add set entry).1 = .returned (some ErrEntryExistsAlready) ↔
      ∃ chain, set.set.lookup (HashCode entry) = some chain ∧
        ∃ e ∈ chain, Equals e entry = true) ∧
    ((¬ ∃ chain, set.set.lookup (HashCode entry) = some chain ∧
        ∃ e ∈ chain, Equals e entry = true) →
      (Add set entry).1 = .returned none) := by
  rcases hl : set.set.lookup (HashCode entry) with _ | chain
  · simp [Add_of_noChain set entry hl]
  · cases chain with
    | nil => exact absurd hl (hset _)
    | cons data next =>
      rw [Add_of_chain set entry data next hl]
      by_cases hc : ((data :: next).any fun e => Equals e entry) = true
      · have hex := List.any_eq_true.1 hc
        simp only [if_pos hc, true_iff, Option.some.injEq, exists_eq_left']
        exact ⟨hex, fun hn => absurd hex hn⟩
      · have hex : ¬ ∃ e ∈ data :: next, Equals e entry = true :=
          fun hex => hc (List.any_eq_true.2 hex)
        simp only [if_neg hc, Option.some.injEq, exists_eq_left']
        exact ⟨⟨fun hf => by simp at hf, fun hf => absurd hf hex⟩, fun _ => trivial⟩

/-- Witness of C1: the set built from `{1,0}`; adding `{1,0}` again fails, and
adding `{2,0}`, for which there is no chain, returns nil. -/
theorem Add_ErrEntryExistsAlready_iff_witness :
    NoNilChain (NewHashSet [(⟨1, 0⟩ : testComparable)]) ∧
    (Add (NewHashSet [(⟨1, 0⟩ : testComparable)]) ⟨1, 0⟩).1 =
      .returned (some ErrEntryExistsAlready) ∧
    (∃ chain, (NewHashSet [(⟨1, 0⟩ : testComparable)]).set.lookup
        (HashCode (⟨1, 0⟩ : testComparable)) = some chain ∧
      ∃ e ∈ chain, Equals e (⟨1, 0⟩ : testComparable) = true) ∧
    (Add (NewHashSet [(⟨1, 0⟩ : testComparable)]) ⟨2, 0⟩).1 = .returned none :=
  ⟨Reachable.noNilChain _ (Reachable.new _), by decide,
    (Add_ErrEntryExistsAlready_iff (NewHashSet [(⟨1, 0⟩ : testComparable)]) ⟨1, 0⟩
      (Reachable.noNilChain _ (Reachable.new _))).1.1 (by decide),
    (Add_ErrEntryExistsAlready_iff (NewHashSet [(⟨1, 0⟩ : testComparable)]) ⟨2, 0⟩
      (Reachable.noNilChain _ (Reachable.new _))).2
      (by
        have hnone : (NewHashSet [(⟨1, 0⟩ : testComparable)]).set.lookup
            (HashCode (⟨2, 0⟩ : testComparable)) = none := by decide
        simp [hnone])⟩

/-- C2: when `Add(entry)` returns `ErrEntryExistsAlready` the set is left as it
was: the state after the call is the state before it (same keys, same chains,
the stored element kept), so `Size()`, `ToSlice()` and every `Contains` query
give what they gave before. -/
theorem Add_ErrEntryExistsAlready_unmodified {α : Type} [Comparable α] (set : hashSet α)
    (entry : α) (herr : (Add set entry).1 = .returned (some ErrEntryExistsAlready)) :
    (Add set entry).2 = set ∧
    (∀ hashCode, (Add set entry).2.set.lookup hashCode = set.set.lookup hashCode) ∧
    Size (Add set entry).2 = Size set ∧
    ToSlice (Add set entry).2 = ToSlice set ∧
    ∀ x, Contains (Add set entry).2 x = Contains set x := by
  have hstate : (Add set entry).2 = set := by
    rcases hl : set.set.lookup (HashCode entry) with _ | chain
    · rw [Add_of_noChain set entry hl] at herr
      simp at herr
    · cases chain with
      | nil => rw [Add_of_nil set entry hl]
      | cons data next =>
        rw [Add_of_chain set entry data next hl] at herr ⊢
        by_cases hc : ((data :: next).any fun e => Equals e entry) = true
        · rw [if_pos hc]
        · rw [if_neg hc] at herr
          simp at herr
  rw [hstate]
  exact ⟨rfl, fun _ => rfl, rfl, rfl, fun _ => rfl⟩

/-- Witness of C2: adding `{1,0}` to the set built from `{1,0}`. -/
theorem Add_ErrEntryExistsAlready_unmodified_witness :
    (Add (NewHashSet [(⟨1, 0⟩ : testComparable)]) ⟨1, 0⟩).1 =
        .returned (some ErrEntryExistsAlready) ∧
    (Add (NewHashSet [(⟨1, 0⟩ : testComparable)]) ⟨1, 0⟩).2 =
        NewHashSet [(⟨1, 0⟩ : testComparable)] :=
  ⟨by decide, (Add_ErrEntryExistsAlready_unmodified _ _ (by decide)).1⟩

/-- C3: when `Add(entry)` returns nil, the chain stored under
`entry.HashCode()` afterwards is the previous chain with `entry` appended at
its end, or `[entry]` if there was no chain: nothing is removed or reordered.
In particular two entries with one hash code, the first not equal to the
second, added to the empty set give the chain `[first, second]`. -/
theorem Add_nil_appends {α : Type} [Comparable α] (set : hashSet α) (entry : α)
    (hnil : (Add set entry).1 = .returned none) :
    ((Add set entry).2.set.lookup (HashCode entry) =
      some ((set.set.lookup (HashCode entry)).getD [] ++ [entry])) ∧
    ∀ first second : α, HashCode first = HashCode second → Equals first second = false →
      (Add (Add ⟨∅⟩ first).2 second).2.set.lookup (HashCode first) = some [first, second] := by
  constructor
  · rcases hl : set.set.lookup (HashCode entry) with _ | chain
    · simp [Add_of_noChain set entry hl, Finmap.lookup_insert]
    · cases chain with
      | nil =>
        rw [Add_of_nil set entry hl] at hnil
        simp at hnil
      | cons data next =>
        rw [Add_of_chain set entry data next hl] at hnil ⊢
        by_cases hc : ((data :: next).any fun e => Equals e entry) = true
        · rw [if_pos hc] at hnil
          simp at hnil
        · rw [if_neg hc]
          simp [Finmap.lookup_insert]
  · intro first second hh heq
    have h1 : (Add (⟨∅⟩ : hashSet α) first).2 = ⟨Finmap.insert (HashCode first)
        [first] ∅⟩ := by rw [Add_of_noChain _ _ (by simp)]
    rw [h1]
    have h2 : (Finmap.insert (HashCode first) [first]
        (∅ : Finmap (fun _ : Int => linkedEntry α))).lookup (HashCode second) =
        some [first] := by rw [← hh, Finmap.lookup_insert]
    rw [Add_of_chain ⟨Finmap.insert (HashCode first) [first] ∅⟩ second first [] h2]
    rw [if_neg (by simp [heq]), hh, Finmap.lookup_insert]
    rfl

/-- Witness of C3: adding `{1,1}` to the set built from `{1,0}`, and adding
`{1,0}` then `{1,1}` to the empty set. -/
theorem Add_nil_appends_witness :
    (Add (NewHashSet [(⟨1, 0⟩ : testComparable)]) ⟨1, 1⟩).1 = .returned none ∧
    (Add (NewHashSet [(⟨1, 0⟩ : testComparable)]) ⟨1, 1⟩).2.set.lookup 1 =
      some [⟨1, 0⟩, ⟨1, 1⟩] ∧
    (Add (Add ⟨∅⟩ (⟨1, 0⟩ : testComparable)).2 ⟨1, 1⟩).2.set.lookup 1 =
      some [⟨1, 0⟩, ⟨1, 1⟩] :=
  ⟨by decide,
    (Add_nil_appends (NewHashSet [(⟨1, 0⟩ : testComparable)]) ⟨1, 1⟩ (by decide)).1,
    (Add_nil_appends (NewHashSet [(⟨1, 0⟩ : testComparable)]) ⟨1, 1⟩ (by decide)).2
      ⟨1, 0⟩ ⟨1, 1⟩ (by decide) (by decide)⟩

/-! ## Contains -/

/-- C4: in a state whose chains are nodes, `Contains(entry)` returns true if and
only if some element `e` of the chain stored under `entry.HashCode()` satisfies
`e.Equals(entry)`, and it returns false when there is no chain under that hash
code or the chain holds no equal element.  `Contains` only reads: it yields a
value and no new state. -/
theorem Contains_true_iff {α : Type} [Comparable α] (set : hashSet α) (entry : α)
    (hset : NoNilChain set) :
    (Contains set entry = .returned true ↔
      ∃ chain, set.set.lookup (HashCode entry) = some chain ∧
        ∃ e ∈ chain, Equals e entry = true) ∧
    ((¬ ∃ chain, set.set.lookup (HashCode entry) = some chain ∧
        ∃ e ∈ chain, Equals e entry = true) →
      Contains set entry = .returned false) := by
  rcases hl : set.set.lookup (HashCode entry) with _ | chain
  · simp [Contains_of_noChain set entry hl]
  · cases chain with
    | nil => exact absurd hl (hset _)
    | cons data next =>
      rw [Contains_of_chain set entry data next hl]
      by_cases hc : ((data :: next).any fun e => Equals e entry) = true
      · have hex := List.any_eq_true.1 hc
        rw [hc]
        simp only [true_iff, Option.some.injEq, exists_eq_left']
        exact ⟨hex, fun hn => absurd hex hn⟩
      · have hex : ¬ ∃ e ∈ data :: next, Equals e entry = true :=
          fun hex => hc (List.any_eq_true.2 hex)
        rw [Bool.not_eq_true] at hc
        rw [hc]
        simp only [Option.some.injEq, exists_eq_left']
        exact ⟨⟨fun hf => by simp at hf, fun hf => absurd hf hex⟩, fun _ => trivial⟩

/-- Witness of C4: the set built from `{1,0}` and `{1,1}` contains `{1,1}`, and
does not contain `{1,2}`, whose chain holds no equal element. -/
theorem Contains_true_iff_witness :
    NoNilChain (NewHashSet [(⟨1, 0⟩ : testComparable), ⟨1, 1⟩]) ∧
    Contains (NewHashSet [(⟨1, 0⟩ : testComparable), ⟨1, 1⟩]) ⟨1, 1⟩ = .returned true ∧
    (∃ chain, (NewHashSet [(⟨1, 0⟩ : testComparable), ⟨1, 1⟩]).set.lookup
        (HashCode (⟨1, 1⟩ : testComparable)) = some chain ∧
      ∃ e ∈ chain, Equals e (⟨1, 1⟩ : testComparable) = true) ∧
    Contains (NewHashSet [(⟨1, 0⟩ : testComparable), ⟨1, 1⟩]) ⟨1, 2⟩ = .returned false :=
  ⟨Reachable.noNilChain _ (Reachable.new _), by decide,
    (Contains_true_iff (NewHashSet [(⟨1, 0⟩ : testComparable), ⟨1, 1⟩]) ⟨1, 1⟩
      (Reachable.noNilChain _ (Reachable.new _))).1.1 (by decide),
    (Contains_true_iff (NewHashSet [(⟨1, 0⟩ : testComparable), ⟨1, 1⟩]) ⟨1, 2⟩
      (Reachable.noNilChain _ (Reachable.new _))).2
      (by
        have hchain : (NewHashSet [(⟨1, 0⟩ : testComparable), ⟨1, 1⟩]).set.lookup
            (HashCode (⟨1, 2⟩ : testComparable)) = some [⟨1, 0⟩, ⟨1, 1⟩] := by decide
        simp [hchain, Equals])⟩

/-! ## Remove -/

/-- C5: on the set holding only `{1,0}`, `Remove({1,1})` does not return
`ErrEntryDoesNotExist`: the loop reads `existingEntry.next.data` with
`existingEntry.next` nil and the call panics.  The same happens when `{1,0}` is
removed a second time from the set built from `{1,0}` and `{1,1}`.  The state is
left as it was in both cases. -/
theorem Remove_absent_from_chain_panics :
    Remove (NewHashSet [(⟨1, 0⟩ : testComparable)]) ⟨1, 1⟩ =
      (.nilDereference, NewHashSet [(⟨1, 0⟩ : testComparable)]) ∧
    (Remove (NewHashSet [(⟨1, 0⟩ : testComparable), ⟨1, 1⟩]) ⟨1, 0⟩).1 = .returned none ∧
    Remove (Remove (NewHashSet [(⟨1, 0⟩ : testComparable), ⟨1, 1⟩]) ⟨1, 0⟩).2 ⟨1, 0⟩ =
      (.nilDereference, (Remove (NewHashSet [(⟨1, 0⟩ : testComparable), ⟨1, 1⟩]) ⟨1, 0⟩).2) := by
  decide

/-- C6: when no chain is stored under `entry.HashCode()`, `Remove(entry)`
returns `ErrEntryDoesNotExist` and the state after the call is the state before
it. -/
theorem Remove_noChain_ErrEntryDoesNotExist {α : Type} [Comparable α] (set : hashSet α)
    (entry : α) (hnone : set.set.lookup (HashCode entry) = none) :
    (Remove set entry).1 = .returned (some ErrEntryDoesNotExist) ∧
    (Remove set entry).2 = set := by
  simp [Remove, hnone]

/-- Witness of C6: removing `{2,0}` from the set built from `{1,0}`. -/
theorem Remove_noChain_ErrEntryDoesNotExist_witness :
    (NewHashSet [(⟨1, 0⟩ : testComparable)]).set.lookup (HashCode (⟨2, 0⟩ : testComparable)) =
      none ∧
    (Remove (NewHashSet [(⟨1, 0⟩ : testComparable)]) ⟨2, 0⟩).1 =
      .returned (some ErrEntryDoesNotExist) ∧
    (Remove (NewHashSet [(⟨1, 0⟩ : testComparable)]) ⟨2, 0⟩).2 =
      NewHashSet [(⟨1, 0⟩ : testComparable)] :=
  ⟨by decide, Remove_noChain_ErrEntryDoesNotExist _ _ (by decide)⟩

/-- C7: when the chain under `entry.HashCode()` holds at least one element `e`
with `e.Equals(entry)` (there may be several), `Remove(entry)` returns nil and
the chain afterwards is the previous chain without the first such element, all
others kept in their order; when nothing is left the hash code is no longer a
key of the map. -/
theorem Remove_deletes_first_match {α : Type} [Comparable α] (set : hashSet α) (entry : α)
    (chain : linkedEntry α) (hchain : set.set.lookup (HashCode entry) = some chain)
    (hmatch : ∃ e ∈ chain, Equals e entry = true) :
    (Remove set entry).1 = .returned none ∧
    ∃ (before : List α) (e : α) (after : List α),
      chain = before ++ e :: after ∧
      (∀ x ∈ before, Equals x entry = false) ∧
      Equals e entry = true ∧
      (before ++ after ≠ [] →
        (Remove set entry).2.set.lookup (HashCode entry) = some (before ++ after)) ∧
      (before ++ after = [] →
        (Remove set entry).2.set.lookup (HashCode entry) = none ∧
        HashCode entry ∉ (Remove set entry).2.set.keys) := by
  obtain ⟨m, hm, hpm⟩ := hmatch
  obtain ⟨e, before, after, hbefore, he, hsplit, herase⟩ :=
    List.exists_of_eraseP (p := fun x => Equals x entry) hm hpm
  cases chain with
  | nil => simp at hm
  | cons data next =>
    rw [Remove_of_chain set entry data next hchain,
      if_pos (List.any_eq_true.2 ⟨m, hm, hpm⟩), herase]
    refine ⟨rfl, before, e, after, hsplit, ?_, he, ?_, ?_⟩
    · intro x hx
      simpa using hbefore x hx
    · intro hne
      have hemp : (before ++ after).isEmpty = false := by
        cases hba : before ++ after with
        | nil => exact absurd hba hne
        | cons _ _ => rfl
      simp only [hemp, Bool.false_eq_true, if_false, Finmap.lookup_insert]
    · intro hnil
      simp only [hnil, List.isEmpty_nil, if_true, Finmap.lookup_erase, Finmap.mem_keys,
        true_and]
      exact Finmap.not_mem_erase_self

/-- Witness of C7: removing `{1,1}` from the set built from `{1,0}`, `{1,1}`,
`{1,2}` leaves the chain `[{1,0}, {1,2}]`. -/
theorem Remove_deletes_first_match_witness :
    (NewHashSet [(⟨1, 0⟩ : testComparable), ⟨1, 1⟩, ⟨1, 2⟩]).set.lookup
        (HashCode (⟨1, 1⟩ : testComparable)) = some [⟨1, 0⟩, ⟨1, 1⟩, ⟨1, 2⟩] ∧
    (Remove (NewHashSet [(⟨1, 0⟩ : testComparable), ⟨1, 1⟩, ⟨1, 2⟩]) ⟨1, 1⟩).1 =
      .returned none ∧
    (Remove (NewHashSet [(⟨1, 0⟩ : testComparable), ⟨1, 1⟩, ⟨1, 2⟩]) ⟨1, 1⟩).2.set.lookup 1 =
      some [⟨1, 0⟩, ⟨1, 2⟩] :=
  ⟨by decide,
    (Remove_deletes_first_match (NewHashSet [(⟨1, 0⟩ : testComparable), ⟨1, 1⟩, ⟨1, 2⟩])
      ⟨1, 1⟩ [⟨1, 0⟩, ⟨1, 1⟩, ⟨1, 2⟩] (by decide) ⟨⟨1, 1⟩, by decide, by decide⟩).1,
    by decide⟩

/-! ## Uniqueness -/

theorem testComparable_lawful : LawfulComparable testComparable where
  refl a := by simp [Equals]
  symm a b := by
    simp only [Equals, Bool.and_eq_true, beq_iff_eq]
    exact fun h => ⟨h.1.symm, h.2.symm⟩
  trans a b c := by
    simp only [Equals, Bool.and_eq_true, beq_iff_eq]
    exact fun h g => ⟨h.1.trans g.1, h.2.trans g.2⟩
  hashCode a b := by
    simp only [Equals, Bool.and_eq_true, beq_iff_eq, HashCode]
    exact fun h => h.1

theorem Reachable.uniqueChains {α : Type} [Comparable α] (set : hashSet α)
    (h : Reachable set) : UniqueChains set := by
  refine Reachable.invariant UniqueChains ?_ ?_ ?_ set h
  · intro k c hc
    simp at hc
  · intro s e hs k c hc
    rcases Add_state s e with heq | ⟨chain, hold, hno, heq⟩
    · rw [heq] at hc; exact hs k c hc
    · rw [heq] at hc
      by_cases hk : k = HashCode e
      · subst hk
        rw [Finmap.lookup_insert] at hc
        cases hc
        have hchain : (∀ x ∈ chain, HashCode x = HashCode e) ∧
            chain.Pairwise (fun a b => Equals a b = false) := by
          rcases hold with ⟨_, hnil⟩ | hsome
          · subst hnil; simp
          · exact hs _ _ hsome
        constructor
        · intro x hx
          rcases List.mem_append.1 hx with hx | hx
          · exact hchain.1 x hx
          · rw [List.mem_singleton.1 hx]
        · refine List.pairwise_append.2 ⟨hchain.2, List.pairwise_singleton _ _, ?_⟩
          intro a ha b hb
          rw [List.mem_singleton.1 hb]
          exact hno a ha
      · rw [Finmap.lookup_insert_of_ne _ hk] at hc; exact hs k c hc
  · intro s e hs k c hc
    rcases Remove_state s e with heq | ⟨chain, hold, _, heq⟩
    · rw [heq] at hc; exact hs k c hc
    · rw [heq] at hc
      have hsub := List.eraseP_sublist (p := fun x => Equals x e) chain
      by_cases hk : k = HashCode e
      · subst hk
        split at hc
        · rw [Finmap.lookup_erase] at hc; cases hc
        · rw [Finmap.lookup_insert] at hc
          cases hc
          exact ⟨fun x hx => (hs _ _ hold).1 x (hsub.subset hx), (hs _ _ hold).2.sublist hsub⟩
      · split at hc
        · rw [Finmap.lookup_erase_ne hk] at hc; exact hs k c hc
        · rw [Finmap.lookup_insert_of_ne _ hk] at hc; exact hs k c hc

/-- C8: if `Equals` is an equivalence relation and equal elements have one hash
code, then in every state reached from `NewHashSet(...)` by calls of `Add` and
`Remove`, no two different stored positions (a position is a map key and an
index into its chain) hold elements `a`, `b` with `a.Equals(b)`. -/
theorem Reachable_no_two_equal {α : Type} [Comparable α] (hlaw : LawfulComparable α)
    (set : hashSet α) (hreach : Reachable set)
    (k₁ k₂ : Int) (c₁ c₂ : linkedEntry α) (i j : Nat)
    (h₁ : set.set.lookup k₁ = some c₁) (h₂ : set.set.lookup k₂ = some c₂)
    (hi : i < c₁.length) (hj : j < c₂.length) (hne : (k₁, i) ≠ (k₂, j)) :
    Equals c₁[i] c₂[j] = false := by
  have hu := Reachable.uniqueChains set hreach
  by_cases hk : k₁ = k₂
  · subst hk
    rw [h₁] at h₂
    cases h₂
    have hij : i ≠ j := fun h => hne (by rw [h])
    have hp := List.pairwise_iff_getElem.1 (hu _ _ h₁).2
    rcases Nat.lt_or_gt_of_ne hij with hlt | hgt
    · exact hp i j hi hj hlt
    · cases hq : Equals c₁[i] c₁[j]
      · rfl
      · have := hlaw.symm _ _ hq
        rw [hp j i hj hi hgt] at this
        cases this
  · cases hq : Equals c₁[i] c₂[j]
    · rfl
    · have hh := hlaw.hashCode _ _ hq
      rw [(hu _ _ h₁).1 _ (List.getElem_mem hi), (hu _ _ h₂).1 _ (List.getElem_mem hj)] at hh
      exact absurd hh hk

/-- Witness of C8: the two positions of the chain of the set built from `{1,0}`
and `{1,1}`. -/
theorem Reachable_no_two_equal_witness :
    LawfulComparable testComparable ∧
    Reachable (NewHashSet [(⟨1, 0⟩ : testComparable), ⟨1, 1⟩]) ∧
    (NewHashSet [(⟨1, 0⟩ : testComparable), ⟨1, 1⟩]).set.lookup 1 =
      some [⟨1, 0⟩, ⟨1, 1⟩] ∧
    Equals ([(⟨1, 0⟩ : testComparable), ⟨1, 1⟩][0]) ([(⟨1, 0⟩ : testComparable), ⟨1, 1⟩][1]) =
      false :=
  ⟨testComparable_lawful, Reachable.new _, by decide,
    Reachable_no_two_equal testComparable_lawful
      (NewHashSet [(⟨1, 0⟩ : testComparable), ⟨1, 1⟩]) (Reachable.new _) 1 1
      [⟨1, 0⟩, ⟨1, 1⟩] [⟨1, 0⟩, ⟨1, 1⟩] 0 1 (by decide) (by decide) (by decide) (by decide)
      (by decide)⟩

/-! ## Size and ToSlice, in closed form -/

theorem Size_loop_cons {α : Type} (size : Nat) (data : α) (next : linkedEntry α) :
    Size.loop size (data :: next) = .returned (size + (data :: next).length) := by
  induction next generalizing size data with
  | nil => simp [Size.loop]
  | cons d n ih =>
    rw [Size.loop, ih]
    simp only [List.length_cons]
    congr 1
    omega

theorem ToSlice_loop_cons {α : Type} (all : List α) (data : α) (next : linkedEntry α) :
    ToSlice.loop all (data :: next) = .returned (all ++ data :: next) := by
  induction next generalizing all data with
  | nil => simp [ToSlice.loop]
  | cons d n ih =>
    rw [ToSlice.loop, ih]
    simp

theorem hashSet.mem_range {α : Type} (set : hashSet α) (chain : linkedEntry α)
    (h : chain ∈ set.range) : ∃ hashCode, set.set.lookup hashCode = some chain := by
  obtain ⟨k, _, hk⟩ := List.mem_filterMap.1 h
  exact ⟨k, hk⟩

theorem Size_eq_sum {α : Type} (set : hashSet α) (hset : NoNilChain set) :
    Size set = .returned (set.range.map List.length).sum := by
  have hfold : ∀ (l : List (linkedEntry α)) (size : Nat), (∀ c ∈ l, c ≠ []) →
      l.foldl Size.round (.returned size) = .returned (size + (l.map List.length).sum) := by
    intro l
    induction l with
    | nil => intro size _; simp
    | cons c l ih =>
      intro size hne
      cases c with
      | nil => exact absurd rfl (hne [] (List.mem_cons_self _ _))
      | cons d n =>
        simp only [List.foldl_cons, Size.round, Size_loop_cons]
        rw [ih _ (fun c hc => hne c (List.mem_cons_of_mem _ hc))]
        simp only [List.map_cons, List.sum_cons, List.length_cons]
        congr 1
        omega
  have hne : ∀ c ∈ set.range, c ≠ [] := by
    intro c hc hnil
    obtain ⟨k, hk⟩ := set.mem_range c hc
    exact hset k (hnil ▸ hk)
  simpa [Size] using hfold set.range 0 hne

theorem ToSlice_eq_join {α : Type} (set : hashSet α) (hset : NoNilChain set) :
    ToSlice set = .returned set.range.flatten := by
  have hfold : ∀ (l : List (linkedEntry α)) (all : List α), (∀ c ∈ l, c ≠ []) →
      l.foldl ToSlice.round (.returned all) = .returned (all ++ l.flatten) := by
    intro l
    induction l with
    | nil => intro all _; simp
    | cons c l ih =>
      intro all hne
      cases c with
      | nil => exact absurd rfl (hne [] (List.mem_cons_self _ _))
      | cons d n =>
        simp only [List.foldl_cons, ToSlice.round, ToSlice_loop_cons]
        rw [ih _ (fun c hc => hne c (List.mem_cons_of_mem _ hc))]
        simp
  have hne : ∀ c ∈ set.range, c ≠ [] := by
    intro c hc hnil
    obtain ⟨k, hk⟩ := set.mem_range c hc
    exact hset k (hnil ▸ hk)
  simpa [ToSlice] using hfold set.range [] hne

/-! ## Add followed by Remove -/

theorem erase_insert_of_lookup_none {α : Type} (m : Finmap (fun _ : Int => linkedEntry α))
    (k : Int) (v : linkedEntry α) (h : m.lookup k = none) :
    (m.insert k v).erase k = m := by
  apply Finmap.ext_lookup
  intro x
  by_cases hx : x = k
  · subst hx
    rw [Finmap.lookup_erase, h]
  · rw [Finmap.lookup_erase_ne hx, Finmap.lookup_insert_of_ne _ hx]

theorem insert_insert_of_lookup {α : Type} (m : Finmap (fun _ : Int => linkedEntry α))
    (k : Int) (v c : linkedEntry α) (h : m.lookup k = some c) :
    (m.insert k v).insert k c = m := by
  apply Finmap.ext_lookup
  intro x
  by_cases hx : x = k
  · subst hx
    rw [Finmap.lookup_insert, h]
  · rw [Finmap.lookup_insert_of_ne _ hx, Finmap.lookup_insert_of_ne _ hx]

/-- After a successful `Add(e)` of an entry that equals itself, `Remove(e)`
returns nil and gives back the state from before the `Add`. -/
theorem Remove_after_Add {α : Type} [Comparable α] (set : hashSet α) (e : α)
    (hrefl : Equals e e = true) (hadd : (Add set e).1 = .returned none) :
    Remove (Add set e).2 e = (.returned none, set) ∧ Contains set e = .returned false := by
  rcases hl : set.set.lookup (HashCode e) with _ | chain
  · rw [Add_of_noChain set e hl]
    have hnew : (Finmap.insert (HashCode e) [e] set.set).lookup (HashCode e) = some [e] :=
      Finmap.lookup_insert _
    rw [Remove_of_chain ⟨Finmap.insert (HashCode e) [e] set.set⟩ e e [] hnew]
    simp [hrefl, erase_insert_of_lookup_none _ _ _ hl, Contains_of_noChain set e hl]
  · cases chain with
    | nil =>
      rw [Add_of_nil set e hl] at hadd
      simp at hadd
    | cons data next =>
      rw [Add_of_chain set e data next hl] at hadd ⊢
      by_cases hc : ((data :: next).any fun x => Equals x e) = true
      · rw [if_pos hc] at hadd
        simp at hadd
      · rw [if_neg hc]
        have hnew : (Finmap.insert (HashCode e) (data :: next ++ [e]) set.set).lookup
            (HashCode e) = some (data :: (next ++ [e])) := Finmap.lookup_insert _
        have hno : ∀ b ∈ data :: next, ¬ (fun x => Equals x e) b = true :=
          fun b hb hq => hc (List.any_eq_true.2 ⟨b, hb, hq⟩)
        have herase : (data :: (next ++ [e])).eraseP (fun x => Equals x e) = data :: next := by
          have := List.eraseP_append_right (p := fun x => Equals x e) [e] hno
          simpa [List.eraseP_cons, hrefl] using this
        rw [Remove_of_chain ⟨Finmap.insert (HashCode e) (data :: next ++ [e]) set.set⟩ e data
          (next ++ [e]) hnew, herase, if_pos (by simp [hrefl]),
          Contains_of_chain set e data next hl]
        rw [Bool.not_eq_true] at hc
        simp [hc, insert_insert_of_lookup _ _ _ _ hl]

/-- C9: for an entry `e` with `e.Equals(e)`, if `Add(e)` returns nil then the
`Remove(e)` that follows returns nil, `Size()` afterwards is what it was before
the `Add` (a number, when the chains of the state are nodes), and
`Contains(e)` is false. -/
theorem Add_Remove_roundtrip {α : Type} [Comparable α] (set : hashSet α) (e : α)
    (hrefl : Equals e e = true) (hadd : (Add set e).1 = .returned none) :
    (Remove (Add set e).2 e).1 = .returned none ∧
    Size (Remove (Add set e).2 e).2 = Size set ∧
    (NoNilChain set → ∃ n : Nat, Size set = .returned n) ∧
    Contains (Remove (Add set e).2 e).2 e = .returned false := by
  obtain ⟨hrem, hcon⟩ := Remove_after_Add set e hrefl hadd
  rw [hrem]
  exact ⟨rfl, rfl, fun hset => ⟨_, Size_eq_sum set hset⟩, hcon⟩

/-- Witness of C9: adding `{1,1}` to the set built from `{1,0}` and `{2,0}`, then
removing it; the size is 2 before and after. -/
theorem Add_Remove_roundtrip_witness :
    Equals (⟨1, 1⟩ : testComparable) ⟨1, 1⟩ = true ∧
    (Add (NewHashSet [(⟨1, 0⟩ : testComparable), ⟨2, 0⟩]) ⟨1, 1⟩).1 = .returned none ∧
    Size (NewHashSet [(⟨1, 0⟩ : testComparable), ⟨2, 0⟩]) = .returned 2 ∧
    Size (Add (NewHashSet [(⟨1, 0⟩ : testComparable), ⟨2, 0⟩]) ⟨1, 1⟩).2 = .returned 3 ∧
    Size (Remove (Add (NewHashSet [(⟨1, 0⟩ : testComparable), ⟨2, 0⟩]) ⟨1, 1⟩).2 ⟨1, 1⟩).2 =
      Size (NewHashSet [(⟨1, 0⟩ : testComparable), ⟨2, 0⟩]) :=
  ⟨by decide, by decide, by decide, by decide,
    (Add_Remove_roundtrip (NewHashSet [(⟨1, 0⟩ : testComparable), ⟨2, 0⟩]) ⟨1, 1⟩
      (by decide) (by decide)).2.1⟩

/-! ## Collisions -/

theorem Contains_of_lookup {α : Type} [Comparable α] (set : hashSet α) (x y : α)
    (chain : linkedEntry α) (h : set.set.lookup (HashCode x) = some chain) (hy : y ∈ chain)
    (hyx : Equals y x = true) : Contains set x = .returned true := by
  cases chain with
  | nil => simp at hy
  | cons data next =>
    rw [Contains_of_chain set x data next h, List.any_eq_true.2 ⟨y, hy, hyx⟩]

theorem Contains_congr {α : Type} [Comparable α] (set set' : hashSet α) (x : α)
    (h : set'.set.lookup (HashCode x) = set.set.lookup (HashCode x)) :
    Contains set' x = Contains set x := by
  simp only [Contains, h]

theorem Contains_of_some {α : Type} [Comparable α] (set : hashSet α) (x : α)
    (chain : linkedEntry α) (hl : set.set.lookup (HashCode x) = some chain)
    (hne : chain ≠ []) :
    Contains set x = .returned (chain.any (fun v => Equals v x)) := by
  cases chain with
  | nil => exact absurd rfl hne
  | cons data next => exact Contains_of_chain set x data next hl

theorem Contains_false_chain {α : Type} [Comparable α] (set : hashSet α) (x : α)
    (h : Contains set x = .returned false) :
    set.set.lookup (HashCode x) ≠ some [] ∧
    ∀ v ∈ (set.set.lookup (HashCode x)).getD [], Equals v x = false := by
  rcases hl : set.set.lookup (HashCode x) with _ | chain
  · simp
  · cases chain with
    | nil =>
      rw [Contains, hl] at h
      simp [Contains.loop] at h
    | cons data next =>
      rw [Contains_of_chain set x data next hl] at h
      have hany : (data :: next).any (fun v => Equals v x) = false := Outcome.returned.inj h
      refine ⟨by simp, ?_⟩
      intro v hv
      cases hq : Equals v x
      · rfl
      · have htrue : (data :: next).any (fun v => Equals v x) = true :=
          List.any_eq_true.2 ⟨v, hv, hq⟩
        rw [hany] at htrue
        cases htrue

theorem Add_absent {α : Type} [Comparable α] (set : hashSet α) (entry : α)
    (hnil : set.set.lookup (HashCode entry) ≠ some [])
    (hno : ∀ v ∈ (set.set.lookup (HashCode entry)).getD [], Equals v entry = false) :
    (Add set entry).1 = .returned none ∧
    (Add set entry).2.set.lookup (HashCode entry) =
      some ((set.set.lookup (HashCode entry)).getD [] ++ [entry]) := by
  rcases hl : set.set.lookup (HashCode entry) with _ | chain
  · rw [Add_of_noChain set entry hl]
    exact ⟨rfl, by simp [Finmap.lookup_insert]⟩
  · cases chain with
    | nil => exact absurd hl hnil
    | cons data next =>
      have hc : ¬ ((data :: next).any fun v => Equals v entry) = true := by
        intro hany
        obtain ⟨v, hv, hve⟩ := List.any_eq_true.1 hany
        have := hno v (by rw [hl]; exact hv)
        rw [hve] at this
        cases this
      rw [Add_of_chain set entry data next hl, if_neg hc]
      exact ⟨rfl, by simp [Finmap.lookup_insert]⟩

theorem Remove_present {α : Type} [Comparable α] (set : hashSet α) (entry : α)
    (chain : linkedEntry α) (hl : set.set.lookup (HashCode entry) = some chain)
    (hm : ∃ v ∈ chain, Equals v entry = true)
    (hne : chain.eraseP (fun v => Equals v entry) ≠ []) :
    (Remove set entry).1 = .returned none ∧
    (Remove set entry).2.set.lookup (HashCode entry) =
      some (chain.eraseP (fun v => Equals v entry)) := by
  cases chain with
  | nil =>
    obtain ⟨v, hv, _⟩ := hm
    simp at hv
  | cons data next =>
    have hemp : ((data :: next).eraseP (fun v => Equals v entry)).isEmpty = false := by
      cases he : (data :: next).eraseP (fun v => Equals v entry) with
      | nil => exact absurd he hne
      | cons _ _ => rfl
    rw [Remove_of_chain set entry data next hl, if_pos (List.any_eq_true.2 hm), hemp]
    exact ⟨rfl, by simp [Finmap.lookup_insert]⟩

/-- C10: if `Equals` is an equivalence relation, `x` is not equal to `a` and
`Contains(x)` is true, then a `Remove(a)` that returns nil leaves `Contains(x)`
true.  In particular, take two elements `a`, `b` with one hash code and
`a.Equals(b)` false, neither contained in the set: `Add(a)` and `Add(b)` both
return nil and both elements are contained afterwards; then `Remove(a)` returns
nil, after which `a` is not contained and `b` is; and likewise `Remove(b)`
returns nil, after which `b` is not contained and `a` is. -/
theorem Remove_keeps_unequal {α : Type} [Comparable α]
    (hrefl : ∀ a : α, Equals a a = true)
    (hsymm : ∀ a b : α, Equals a b = true → Equals b a = true)
    (htrans : ∀ a b c : α, Equals a b = true → Equals b c = true → Equals a c = true) :
    (∀ (set : hashSet α) (a x : α), Equals x a = false →
      Contains set x = .returned true → (Remove set a).1 = .returned none →
      Contains (Remove set a).2 x = .returned true) ∧
    (∀ (set : hashSet α) (a b : α), HashCode a = HashCode b → Equals a b = false →
      Contains set a = .returned false → Contains set b = .returned false →
      (Add set a).1 = .returned none ∧
      (Add (Add set a).2 b).1 = .returned none ∧
      Contains (Add (Add set a).2 b).2 a = .returned true ∧
      Contains (Add (Add set a).2 b).2 b = .returned true ∧
      (Remove (Add (Add set a).2 b).2 a).1 = .returned none ∧
      Contains (Remove (Add (Add set a).2 b).2 a).2 a = .returned false ∧
      Contains (Remove (Add (Add set a).2 b).2 a).2 b = .returned true ∧
      (Remove (Add (Add set a).2 b).2 b).1 = .returned none ∧
      Contains (Remove (Add (Add set a).2 b).2 b).2 b = .returned false ∧
      Contains (Remove (Add (Add set a).2 b).2 b).2 a = .returned true) := by
  constructor
  · intro set a x hxa hcx hrem
    rcases Remove_state set a with heq | ⟨chain, hchain, _, heq⟩
    · rw [heq]; exact hcx
    · by_cases hh : HashCode x = HashCode a
      · -- the chain of `x` is the chain `Remove` works on
        have hx : ∃ y ∈ chain, Equals y x = true := by
          cases chain with
          | nil =>
            rw [Contains, hh, hchain] at hcx
            simp [Contains.loop] at hcx
          | cons data next =>
            rw [← hh] at hchain
            rw [Contains_of_chain set x data next hchain] at hcx
            exact List.any_eq_true.1 (by simpa using hcx)
        obtain ⟨y, hy, hyx⟩ := hx
        have hya : ¬ (fun e => Equals e a) y = true := by
          intro hya
          have := htrans x y a (hsymm y x hyx) hya
          rw [hxa] at this
          cases this
        have hmem : y ∈ chain.eraseP (fun e => Equals e a) :=
          (List.mem_eraseP_of_neg (p := fun e => Equals e a) (a := y) hya).2 hy
        have hemp : (chain.eraseP (fun e => Equals e a)).isEmpty = false := by
          cases hc : chain.eraseP (fun e => Equals e a) with
          | nil => rw [hc] at hmem; simp at hmem
          | cons _ _ => rfl
        rw [heq, hemp]
        simp only [Bool.false_eq_true, if_false]
        exact Contains_of_lookup _ x y _ (by rw [hh, Finmap.lookup_insert]) hmem hyx
      · rw [← hcx, heq]
        apply Contains_congr
        split
        · exact Finmap.lookup_erase_ne hh
        · exact Finmap.lookup_insert_of_ne _ hh
  · intro set a b hh hab hca hcb
    have hba : Equals b a = false := by
      cases hq : Equals b a
      · rfl
      · have := hsymm b a hq
        rw [hab] at this
        cases this
    obtain ⟨hnil_a, hno_a⟩ := Contains_false_chain set a hca
    obtain ⟨_, hno_b⟩ := Contains_false_chain set b hcb
    rw [← hh] at hno_b
    -- the chain of the hash code before the two calls
    generalize hc : (set.set.lookup (HashCode a)).getD [] = c at hno_a hno_b
    obtain ⟨hadd1, hl1⟩ := Add_absent set a hnil_a (by rw [hc]; exact hno_a)
    rw [hc] at hl1
    have hl1b : (Add set a).2.set.lookup (HashCode b) = some (c ++ [a]) := by
      rw [← hh]; exact hl1
    have hno1 : ∀ v ∈ c ++ [a], Equals v b = false := by
      intro v hv
      rcases List.mem_append.1 hv with h | h
      · exact hno_b v h
      · rw [List.mem_singleton.1 h]; exact hab
    obtain ⟨hadd2, hl2b⟩ := Add_absent (Add set a).2 b (by rw [hl1b]; simp)
      (by rw [hl1b]; exact hno1)
    rw [hl1b, Option.getD_some] at hl2b
    have hl2a : (Add (Add set a).2 b).2.set.lookup (HashCode a) = some (c ++ [a] ++ [b]) := by
      rw [hh]; exact hl2b
    have hmem_a : a ∈ c ++ [a] ++ [b] := by simp
    have hmem_b : b ∈ c ++ [a] ++ [b] := by simp
    -- what the two removals leave of the chain
    have herase_a : (c ++ [a] ++ [b]).eraseP (fun v => Equals v a) = c ++ [b] := by
      rw [List.append_assoc, List.eraseP_append_right (p := fun v => Equals v a) _
        (fun v hv => by simp [hno_a v hv])]
      simp [List.eraseP_cons, hrefl a]
    have herase_b : (c ++ [a] ++ [b]).eraseP (fun v => Equals v b) = c ++ [a] := by
      rw [List.eraseP_append_right (p := fun v => Equals v b) _
        (fun v hv => by simp [hno1 v hv])]
      simp [List.eraseP_cons, hrefl b]
    obtain ⟨hrem_a, hl3a⟩ := Remove_present (Add (Add set a).2 b).2 a _ hl2a
      ⟨a, hmem_a, hrefl a⟩ (by rw [herase_a]; simp)
    rw [herase_a] at hl3a
    obtain ⟨hrem_b, hl3b⟩ := Remove_present (Add (Add set a).2 b).2 b _ hl2b
      ⟨b, hmem_b, hrefl b⟩ (by rw [herase_b]; simp)
    rw [herase_b] at hl3b
    have hl3a' : (Remove (Add (Add set a).2 b).2 a).2.set.lookup (HashCode b) =
        some (c ++ [b]) := by rw [← hh]; exact hl3a
    have hl3b' : (Remove (Add (Add set a).2 b).2 b).2.set.lookup (HashCode a) =
        some (c ++ [a]) := by rw [hh]; exact hl3b
    refine ⟨hadd1, hadd2, ?_, ?_, hrem_a, ?_, ?_, hrem_b, ?_, ?_⟩
    · exact Contains_of_lookup _ a a _ hl2a hmem_a (hrefl a)
    · exact Contains_of_lookup _ b b _ hl2b hmem_b (hrefl b)
    · rw [Contains_of_some _ a _ hl3a (by simp)]
      congr 1
      rw [Bool.eq_false_iff]
      intro hany
      obtain ⟨v, hv, hva⟩ := List.any_eq_true.1 hany
      rcases List.mem_append.1 hv with h | h
      · rw [hno_a v h] at hva; cases hva
      · rw [List.mem_singleton.1 h, hba] at hva; cases hva
    · exact Contains_of_lookup _ b b _ hl3a' (by simp) (hrefl b)
    · rw [Contains_of_some _ b _ hl3b (by simp)]
      congr 1
      rw [Bool.eq_false_iff]
      intro hany
      obtain ⟨v, hv, hvb⟩ := List.any_eq_true.1 hany
      rw [hno1 v hv] at hvb
      cases hvb
    · exact Contains_of_lookup _ a a _ hl3b' (by simp) (hrefl a)

/-- Witness of C10: on the set built from `{1,0}` and `{1,1}`, `{1,0}` is removed
and `{1,1}` is still contained.  And on the set holding `{1,2}`, after `{1,0}`
and `{1,1}` are added, removing `{1,1}` (found by the loop, two nodes behind
the head) leaves `{1,0}` contained and `{1,1}` not, and removing `{1,0}` leaves
`{1,1}` contained and `{1,0}` not. -/
theorem Remove_keeps_unequal_witness :
    Equals (⟨1, 1⟩ : testComparable) ⟨1, 0⟩ = false ∧
    Contains (NewHashSet [(⟨1, 0⟩ : testComparable), ⟨1, 1⟩]) ⟨1, 1⟩ = .returned true ∧
    (Remove (NewHashSet [(⟨1, 0⟩ : testComparable), ⟨1, 1⟩]) ⟨1, 0⟩).1 = .returned none ∧
    Contains (Remove (NewHashSet [(⟨1, 0⟩ : testComparable), ⟨1, 1⟩]) ⟨1, 0⟩).2 ⟨1, 1⟩ =
      .returned true ∧
    (Add (Add (NewHashSet [(⟨1, 2⟩ : testComparable)]) ⟨1, 0⟩).2 ⟨1, 1⟩).2.set.lookup 1 =
      some [⟨1, 2⟩, ⟨1, 0⟩, ⟨1, 1⟩] ∧
    (Remove (Add (Add (NewHashSet [(⟨1, 2⟩ : testComparable)]) ⟨1, 0⟩).2 ⟨1, 1⟩).2
      ⟨1, 1⟩).2.set.lookup 1 = some [⟨1, 2⟩, ⟨1, 0⟩] ∧
    Contains (Remove (Add (Add (NewHashSet [(⟨1, 2⟩ : testComparable)]) ⟨1, 0⟩).2 ⟨1, 1⟩).2
      ⟨1, 1⟩).2 ⟨1, 1⟩ = .returned false ∧
    Contains (Remove (Add (Add (NewHashSet [(⟨1, 2⟩ : testComparable)]) ⟨1, 0⟩).2 ⟨1, 1⟩).2
      ⟨1, 1⟩).2 ⟨1, 0⟩ = .returned true ∧
    Contains (Remove (Add (Add (NewHashSet [(⟨1, 2⟩ : testComparable)]) ⟨1, 0⟩).2 ⟨1, 1⟩).2
      ⟨1, 0⟩).2 ⟨1, 0⟩ = .returned false ∧
    Contains (Remove (Add (Add (NewHashSet [(⟨1, 2⟩ : testComparable)]) ⟨1, 0⟩).2 ⟨1, 1⟩).2
      ⟨1, 0⟩).2 ⟨1, 1⟩ = .returned true :=
  ⟨by decide, by decide, by decide,
    (Remove_keeps_unequal testComparable_lawful.refl testComparable_lawful.symm
      testComparable_lawful.trans).1
      (NewHashSet [(⟨1, 0⟩ : testComparable), ⟨1, 1⟩]) ⟨1, 0⟩ ⟨1, 1⟩
      (by decide) (by decide) (by decide),
    by decide, by decide,
    ((Remove_keeps_unequal testComparable_lawful.refl testComparable_lawful.symm
      testComparable_lawful.trans).2
      (NewHashSet [(⟨1, 2⟩ : testComparable)]) ⟨1, 0⟩ ⟨1, 1⟩
      (by decide) (by decide) (by decide) (by decide)).2.2.2.2.2.2.2.2.1,
    ((Remove_keeps_unequal testComparable_lawful.refl testComparable_lawful.symm
      testComparable_lawful.trans).2
      (NewHashSet [(⟨1, 2⟩ : testComparable)]) ⟨1, 0⟩ ⟨1, 1⟩
      (by decide) (by decide) (by decide) (by decide)).2.2.2.2.2.2.2.2.2,
    ((Remove_keeps_unequal testComparable_lawful.refl testComparable_lawful.symm
      testComparable_lawful.trans).2
      (NewHashSet [(⟨1, 2⟩ : testComparable)]) ⟨1, 0⟩ ⟨1, 1⟩
      (by decide) (by decide) (by decide) (by decide)).2.2.2.2.2.1,
    ((Remove_keeps_unequal testComparable_lawful.refl testComparable_lawful.symm
      testComparable_lawful.trans).2
      (NewHashSet [(⟨1, 2⟩ : testComparable)]) ⟨1, 0⟩ ⟨1, 1⟩
      (by decide) (by decide) (by decide) (by decide)).2.2.2.2.2.2.1⟩

/-! ## The bucket invariant, the frame of a call, and exact undo -/

/-- C15: in every state reached from `NewHashSet(...)` by calls of `Add` and
`Remove`, every element stored in the chain under map key `h` has
`HashCode() == h` (the hash code of an element is stable: `HashCode` is a
function of the element). -/
theorem Reachable_bucket {α : Type} [Comparable α] (set : hashSet α) (hreach : Reachable set)
    (hashCode : Int) (chain : linkedEntry α) (hchain : set.set.lookup hashCode = some chain)
    (e : α) (he : e ∈ chain) : HashCode e = hashCode :=
  (Reachable.uniqueChains set hreach hashCode chain hchain).1 e he

/-- Witness of C15: the element `{1,1}` of the chain under key 1 of the set built
from `{1,0}`, `{2,0}`, `{1,1}`. -/
theorem Reachable_bucket_witness :
    Reachable (NewHashSet [(⟨1, 0⟩ : testComparable), ⟨2, 0⟩, ⟨1, 1⟩]) ∧
    (NewHashSet [(⟨1, 0⟩ : testComparable), ⟨2, 0⟩, ⟨1, 1⟩]).set.lookup 1 =
      some [⟨1, 0⟩, ⟨1, 1⟩] ∧
    HashCode (⟨1, 1⟩ : testComparable) = 1 :=
  ⟨Reachable.new _, by decide,
    Reachable_bucket (NewHashSet [(⟨1, 0⟩ : testComparable), ⟨2, 0⟩, ⟨1, 1⟩])
      (Reachable.new _) 1 [⟨1, 0⟩, ⟨1, 1⟩] (by decide) ⟨1, 1⟩ (by decide)⟩

theorem mem_keys_of_lookup_eq {α : Type} (m m' : Finmap (fun _ : Int => linkedEntry α))
    (k : Int) (h : m'.lookup k = m.lookup k) : k ∈ m'.keys ↔ k ∈ m.keys := by
  rw [Finmap.mem_keys, Finmap.mem_keys, ← Finmap.lookup_isSome, ← Finmap.lookup_isSome, h]

theorem Add_lookup_ne {α : Type} [Comparable α] (set : hashSet α) (entry : α) (k : Int)
    (hk : k ≠ HashCode entry) : (Add set entry).2.set.lookup k = set.set.lookup k := by
  rcases Add_state set entry with heq | ⟨chain, _, _, heq⟩
  · rw [heq]
  · rw [heq]
    exact Finmap.lookup_insert_of_ne _ hk

theorem Remove_lookup_ne {α : Type} [Comparable α] (set : hashSet α) (entry : α) (k : Int)
    (hk : k ≠ HashCode entry) : (Remove set entry).2.set.lookup k = set.set.lookup k := by
  rcases Remove_state set entry with heq | ⟨chain, _, _, heq⟩
  · rw [heq]
  · rw [heq]
    split
    · exact Finmap.lookup_erase_ne hk
    · exact Finmap.lookup_insert_of_ne _ hk

/-- C19: for every state and every entry with hash code `h`, `Add(entry)` and
`Remove(entry)`, whatever they return, leave the chain under every hash code
other than `h` as it was, and a hash code other than `h` is a key of the map
afterwards exactly if it was one before. -/
theorem Add_Remove_frame {α : Type} [Comparable α] (set : hashSet α) (entry : α)
    (hashCode : Int) (hne : hashCode ≠ HashCode entry) :
    (Add set entry).2.set.lookup hashCode = set.set.lookup hashCode ∧
    (Remove set entry).2.set.lookup hashCode = set.set.lookup hashCode ∧
    (hashCode ∈ (Add set entry).2.set.keys ↔ hashCode ∈ set.set.keys) ∧
    (hashCode ∈ (Remove set entry).2.set.keys ↔ hashCode ∈ set.set.keys) :=
  ⟨Add_lookup_ne set entry hashCode hne, Remove_lookup_ne set entry hashCode hne,
    mem_keys_of_lookup_eq _ _ _ (Add_lookup_ne set entry hashCode hne),
    mem_keys_of_lookup_eq _ _ _ (Remove_lookup_ne set entry hashCode hne)⟩

/-- Witness of C19: the chain under key 2 of the set built from `{1,0}`, `{2,0}`
when `{1,1}` is added and when `{1,0}` is removed. -/
theorem Add_Remove_frame_witness :
    (2 : Int) ≠ HashCode (⟨1, 1⟩ : testComparable) ∧
    (Add (NewHashSet [(⟨1, 0⟩ : testComparable), ⟨2, 0⟩]) ⟨1, 1⟩).2.set.lookup 2 =
      (NewHashSet [(⟨1, 0⟩ : testComparable), ⟨2, 0⟩]).set.lookup 2 ∧
    (Remove (NewHashSet [(⟨1, 0⟩ : testComparable), ⟨2, 0⟩]) ⟨1, 0⟩).2.set.lookup 2 =
      (NewHashSet [(⟨1, 0⟩ : testComparable), ⟨2, 0⟩]).set.lookup 2 :=
  ⟨by decide,
    (Add_Remove_frame (NewHashSet [(⟨1, 0⟩ : testComparable), ⟨2, 0⟩]) ⟨1, 1⟩ 2
      (by decide)).1,
    (Add_Remove_frame (NewHashSet [(⟨1, 0⟩ : testComparable), ⟨2, 0⟩]) ⟨1, 0⟩ 2
      (by decide)).2.1⟩

/-- C20: for an entry `e` with `e.Equals(e)`, if `Add(e)` returns nil then the
state after the `Remove(e)` that follows is the state before the `Add`: the
same map, with the same keys and under each key the same chain, element by
element. -/
theorem Add_Remove_exact_undo {α : Type} [Comparable α] (set : hashSet α) (e : α)
    (hrefl : Equals e e = true) (hadd : (Add set e).1 = .returned none) :
    (Remove (Add set e).2 e).2 = set ∧
    (Remove (Add set e).2 e).2.set.keys = set.set.keys ∧
    ∀ hashCode, (Remove (Add set e).2 e).2.set.lookup hashCode = set.set.lookup hashCode := by
  rw [(Remove_after_Add set e hrefl hadd).1]
  exact ⟨rfl, rfl, fun _ => rfl⟩

/-- Witness of C20: adding `{1,1}` to the set built from `{1,0}`, `{2,0}` and
removing it again. -/
theorem Add_Remove_exact_undo_witness :
    Equals (⟨1, 1⟩ : testComparable) ⟨1, 1⟩ = true ∧
    (Add (NewHashSet [(⟨1, 0⟩ : testComparable), ⟨2, 0⟩]) ⟨1, 1⟩).1 = .returned none ∧
    (Add (NewHashSet [(⟨1, 0⟩ : testComparable), ⟨2, 0⟩]) ⟨1, 1⟩).2 ≠
      NewHashSet [(⟨1, 0⟩ : testComparable), ⟨2, 0⟩] ∧
    (Remove (Add (NewHashSet [(⟨1, 0⟩ : testComparable), ⟨2, 0⟩]) ⟨1, 1⟩).2 ⟨1, 1⟩).2 =
      NewHashSet [(⟨1, 0⟩ : testComparable), ⟨2, 0⟩] :=
  ⟨by decide, by decide, by decide,
    (Add_Remove_exact_undo (NewHashSet [(⟨1, 0⟩ : testComparable), ⟨2, 0⟩]) ⟨1, 1⟩
      (by decide) (by decide)).1⟩

/-! ## Sums over the chains of the map -/

/-- The chains visited by `range` are the chains under the keys of the map, each
key once. -/
theorem hashSet.range_eq {α : Type} (set : hashSet α) :
    ∃ ks : List Int, (ks : Multiset Int) = set.set.keys.val ∧
      set.range = ks.map (fun k => (set.set.lookup k).getD []) := by
  have hsorted : ∀ (ms : Multiset Int) (hprf : ∀ a b : List Int, a ≈ b →
      List.insertionSort (· ≤ ·) a = List.insertionSort (· ≤ ·) b),
      ((Quot.liftOn ms (List.insertionSort (· ≤ ·)) hprf : List Int) : Multiset Int) = ms := by
    intro ms hprf
    induction ms using Quot.inductionOn with
    | h l => exact Quot.sound (List.perm_insertionSort _ _)
  have hprf : ∀ a b : List Int, a ≈ b →
      List.insertionSort (· ≤ ·) a = List.insertionSort (· ≤ ·) b := fun _ _ h =>
    List.eq_of_perm_of_sorted
      ((List.perm_insertionSort _ _).trans (h.trans (List.perm_insertionSort _ _).symm))
      (List.sorted_insertionSort _ _) (List.sorted_insertionSort _ _)
  refine ⟨Quot.liftOn set.set.keys.val (List.insertionSort (· ≤ ·)) hprf,
    hsorted set.set.keys.val hprf, ?_⟩
  have hmem : ∀ k ∈ (Quot.liftOn set.set.keys.val (List.insertionSort (· ≤ ·)) hprf : List Int),
      k ∈ set.set.keys := by
    intro k hk
    rw [← Finset.mem_val, ← hsorted set.set.keys.val hprf]
    exact hk
  show List.filterMap (fun hashCode => set.set.lookup hashCode)
      (Quot.liftOn set.set.keys.val (List.insertionSort (· ≤ ·)) hprf) = _
  generalize (Quot.liftOn set.set.keys.val (List.insertionSort (· ≤ ·)) hprf : List Int) = ks
    at hmem ⊢
  induction ks with
  | nil => rfl
  | cons k ks ih =>
    have hk : k ∈ set.set := Finmap.mem_keys.1 (hmem k (List.mem_cons_self _ _))
    obtain ⟨c, hc⟩ := Finmap.mem_iff.1 hk
    rw [List.filterMap_cons, List.map_cons, hc, ih (fun x hx => hmem x (List.mem_cons_of_mem _ hx))]
    rfl

theorem hashSet.sum_range {α M : Type} [AddCommMonoid M] (set : hashSet α)
    (f : linkedEntry α → M) :
    (set.range.map f).sum = Finset.sum set.set.keys (fun k => f ((set.set.lookup k).getD [])) := by
  obtain ⟨ks, hks, hrange⟩ := set.range_eq
  rw [hrange, List.map_map, Finset.sum_eq_multiset_sum, ← hks, Multiset.map_coe,
    Multiset.sum_coe]
  rfl

theorem hashSet.mem_range_of_lookup {α : Type} (set : hashSet α) (k : Int)
    (chain : linkedEntry α) (h : set.set.lookup k = some chain) : chain ∈ set.range := by
  obtain ⟨ks, hks, hrange⟩ := set.range_eq
  rw [hrange]
  have hk : k ∈ ks := by
    have : k ∈ set.set.keys := Finmap.mem_keys.2 (Finmap.mem_iff.2 ⟨chain, h⟩)
    rw [← Finset.mem_val, ← hks] at this
    exact this
  exact List.mem_map.2 ⟨k, hk, by rw [h]; rfl⟩

theorem sum_keys_split {α M : Type} [AddCommMonoid M]
    (m : Finmap (fun _ : Int => linkedEntry α)) (k : Int) (f : linkedEntry α → M)
    (hf : f [] = 0) :
    Finset.sum m.keys (fun x => f ((m.lookup x).getD [])) =
      f ((m.lookup k).getD []) +
        Finset.sum (m.keys.erase k) (fun x => f ((m.lookup x).getD [])) := by
  by_cases hk : k ∈ m.keys
  · exact (Finset.add_sum_erase m.keys (fun x => f ((m.lookup x).getD [])) hk).symm
  · have hnone : m.lookup k = none := Finmap.lookup_eq_none.2 (fun h => hk (Finmap.mem_keys.2 h))
    rw [Finset.erase_eq_of_not_mem hk, hnone]
    simp [hf]

theorem sum_keys_insert {α M : Type} [AddCommMonoid M]
    (m : Finmap (fun _ : Int => linkedEntry α)) (k : Int) (v : linkedEntry α)
    (f : linkedEntry α → M) :
    Finset.sum (m.insert k v).keys (fun x => f (((m.insert k v).lookup x).getD [])) =
      f v + Finset.sum (m.keys.erase k) (fun x => f ((m.lookup x).getD [])) := by
  have hkeys : (m.insert k v).keys = insert k (m.keys.erase k) := by
    ext x
    simp only [Finmap.mem_keys, Finmap.mem_insert, Finset.mem_insert, Finset.mem_erase]
    by_cases hx : x = k
    · simp [hx]
    · simp [hx]
  rw [hkeys, Finset.sum_insert (Finset.not_mem_erase k _), Finmap.lookup_insert]
  congr 1
  apply Finset.sum_congr rfl
  intro x hx
  rw [Finmap.lookup_insert_of_ne _ (Finset.ne_of_mem_erase hx)]

theorem sum_keys_erase {α M : Type} [AddCommMonoid M]
    (m : Finmap (fun _ : Int => linkedEntry α)) (k : Int) (f : linkedEntry α → M) :
    Finset.sum (m.erase k).keys (fun x => f (((m.erase k).lookup x).getD [])) =
      Finset.sum (m.keys.erase k) (fun x => f ((m.lookup x).getD [])) := by
  rw [Finmap.keys_erase]
  apply Finset.sum_congr rfl
  intro x hx
  rw [Finmap.lookup_erase_ne (Finset.ne_of_mem_erase hx)]

/-! ## What a call does to the state, by its result -/

theorem Add_nil_state {α : Type} [Comparable α] (set : hashSet α) (entry : α)
    (hnil : (Add set entry).1 = .returned none) :
    ∃ chain : linkedEntry α,
      (set.set.lookup (HashCode entry)).getD [] = chain ∧
      (∀ e ∈ chain, Equals e entry = false) ∧
      (Add set entry).2 = ⟨set.set.insert (HashCode entry) (chain ++ [entry])⟩ := by
  rcases hl : set.set.lookup (HashCode entry) with _ | chain
  · exact ⟨[], rfl, by simp, by rw [Add_of_noChain set entry hl]; rfl⟩
  · cases chain with
    | nil =>
      rw [Add_of_nil set entry hl] at hnil
      simp at hnil
    | cons data next =>
      rw [Add_of_chain set entry data next hl] at hnil ⊢
      by_cases hc : ((data :: next).any fun e => Equals e entry) = true
      · rw [if_pos hc] at hnil
        simp at hnil
      · refine ⟨data :: next, rfl, ?_, by rw [if_neg hc]⟩
        intro e he
        cases hq : Equals e entry
        · rfl
        · exact absurd (List.any_eq_true.2 ⟨e, he, hq⟩) hc

theorem Add_not_nil_state {α : Type} [Comparable α] (set : hashSet α) (entry : α)
    (hnot : (Add set entry).1 ≠ .returned none) : (Add set entry).2 = set := by
  rcases hl : set.set.lookup (HashCode entry) with _ | chain
  · rw [Add_of_noChain set entry hl] at hnot
    exact absurd rfl hnot
  · cases chain with
    | nil => rw [Add_of_nil set entry hl]
    | cons data next =>
      rw [Add_of_chain set entry data next hl] at hnot ⊢
      by_cases hc : ((data :: next).any fun e => Equals e entry) = true
      · rw [if_pos hc]
      · rw [if_neg hc] at hnot
        exact absurd rfl hnot

theorem Remove_nil_state {α : Type} [Comparable α] (set : hashSet α) (entry : α)
    (hnil : (Remove set entry).1 = .returned none) :
    ∃ chain : linkedEntry α,
      set.set.lookup (HashCode entry) = some chain ∧
      (∃ e ∈ chain, Equals e entry = true) ∧
      (Remove set entry).2 =
        if (chain.eraseP (fun e => Equals e entry)).isEmpty then
          ⟨set.set.erase (HashCode entry)⟩
        else ⟨set.set.insert (HashCode entry) (chain.eraseP (fun e => Equals e entry))⟩ := by
  rcases hl : set.set.lookup (HashCode entry) with _ | chain
  · rw [Remove_of_noChain set entry hl] at hnil
    simp at hnil
  · cases chain with
    | nil =>
      rw [Remove_of_nil set entry hl] at hnil
      simp at hnil
    | cons data next =>
      rw [Remove_of_chain set entry data next hl] at hnil ⊢
      by_cases hc : ((data :: next).any fun e => Equals e entry) = true
      · exact ⟨data :: next, rfl, List.any_eq_true.1 hc, by rw [if_pos hc]⟩
      · rw [if_neg hc] at hnil
        simp at hnil

theorem Remove_not_nil_state {α : Type} [Comparable α] (set : hashSet α) (entry : α)
    (hnot : (Remove set entry).1 ≠ .returned none) : (Remove set entry).2 = set := by
  rcases hl : set.set.lookup (HashCode entry) with _ | chain
  · rw [Remove_of_noChain set entry hl]
  · cases chain with
    | nil => rw [Remove_of_nil set entry hl]
    | cons data next =>
      rw [Remove_of_chain set entry data next hl] at hnot ⊢
      by_cases hc : ((data :: next).any fun e => Equals e entry) = true
      · rw [if_pos hc] at hnot
        exact absurd rfl hnot
      · rw [if_neg hc]

theorem NoNilChain_Add {α : Type} [Comparable α] (set : hashSet α) (entry : α)
    (hset : NoNilChain set) : NoNilChain (Add set entry).2 := by
  intro k
  rcases Add_state set entry with heq | ⟨chain, _, _, heq⟩
  · rw [heq]; exact hset k
  · rw [heq]
    by_cases hk : k = HashCode entry
    · subst hk
      simp [Finmap.lookup_insert]
    · rw [Finmap.lookup_insert_of_ne _ hk]; exact hset k

theorem NoNilChain_Remove {α : Type} [Comparable α] (set : hashSet α) (entry : α)
    (hset : NoNilChain set) : NoNilChain (Remove set entry).2 := by
  intro k
  rcases Remove_state set entry with heq | ⟨chain, _, _, heq⟩
  · rw [heq]; exact hset k
  · rw [heq]
    by_cases hk : k = HashCode entry
    · subst hk
      cases hc : List.eraseP (fun x => Equals x entry) chain with
      | nil => simp [Finmap.lookup_erase]
      | cons a l => simp [Finmap.lookup_insert]
    · split
      · rw [Finmap.lookup_erase_ne hk]; exact hset k
      · rw [Finmap.lookup_insert_of_ne _ hk]; exact hset k

/-! ## Size -/

theorem Size_eq_sum_keys {α : Type} (set : hashSet α) (hset : NoNilChain set) :
    Size set =
      .returned (Finset.sum set.set.keys (fun k => ((set.set.lookup k).getD []).length)) := by
  rw [Size_eq_sum set hset, set.sum_range List.length]

theorem sum_keys_Add_nil {α : Type} [Comparable α] (set : hashSet α) (entry : α)
    (hnil : (Add set entry).1 = .returned none) :
    Finset.sum (Add set entry).2.set.keys
        (fun k => (((Add set entry).2.set.lookup k).getD []).length) =
      Finset.sum set.set.keys (fun k => ((set.set.lookup k).getD []).length) + 1 := by
  obtain ⟨chain, hchain, _, heq⟩ := Add_nil_state set entry hnil
  rw [heq, sum_keys_insert set.set (HashCode entry) (chain ++ [entry]) List.length,
    sum_keys_split set.set (HashCode entry) List.length rfl, hchain, List.length_append,
    List.length_singleton]
  omega

theorem sum_keys_Remove_nil {α : Type} [Comparable α] (set : hashSet α) (entry : α)
    (hnil : (Remove set entry).1 = .returned none) :
    Finset.sum (Remove set entry).2.set.keys
        (fun k => (((Remove set entry).2.set.lookup k).getD []).length) + 1 =
      Finset.sum set.set.keys (fun k => ((set.set.lookup k).getD []).length) := by
  obtain ⟨chain, hchain, ⟨x, hx, hxe⟩, heq⟩ := Remove_nil_state set entry hnil
  have hlen : (chain.eraseP (fun e => Equals e entry)).length + 1 = chain.length := by
    rw [List.length_eraseP_of_mem (p := fun e => Equals e entry) hx hxe]
    have : 0 < chain.length := List.length_pos_of_mem hx
    omega
  rw [heq, sum_keys_split set.set (HashCode entry) List.length rfl, hchain, Option.getD_some,
    ← hlen]
  cases hc : List.eraseP (fun e => Equals e entry) chain with
  | nil =>
    simp only [List.isEmpty_nil, if_true, List.length_nil]
    rw [sum_keys_erase set.set (HashCode entry) List.length]
    omega
  | cons a l =>
    simp only [List.isEmpty_cons, Bool.false_eq_true, if_false]
    rw [sum_keys_insert set.set (HashCode entry) (a :: l) List.length]
    omega

/-- C12: in a state whose chains are nodes, `Size()` is the sum of the lengths
of all chains; it is one more after an `Add` that returns nil, one less after a
`Remove` that returns nil, and the same after an `Add` or `Remove` that does
not return nil. -/
theorem Size_counts_elements {α : Type} [Comparable α] (set : hashSet α)
    (hset : NoNilChain set) :
    Size set =
      .returned (Finset.sum set.set.keys (fun k => ((set.set.lookup k).getD []).length)) ∧
    ∀ (entry : α) (n : Nat), Size set = .returned n →
      ((Add set entry).1 = .returned none → Size (Add set entry).2 = .returned (n + 1)) ∧
      ((Add set entry).1 ≠ .returned none → Size (Add set entry).2 = .returned n) ∧
      ((Remove set entry).1 = .returned none →
        ∃ m : Nat, Size (Remove set entry).2 = .returned m ∧ m + 1 = n) ∧
      ((Remove set entry).1 ≠ .returned none → Size (Remove set entry).2 = .returned n) := by
  refine ⟨Size_eq_sum_keys set hset, ?_⟩
  intro entry n hn
  rw [Size_eq_sum_keys set hset] at hn
  cases hn
  refine ⟨?_, ?_, ?_, ?_⟩
  · intro hnil
    rw [Size_eq_sum_keys _ (NoNilChain_Add set entry hset), sum_keys_Add_nil set entry hnil]
  · intro hnot
    rw [Add_not_nil_state set entry hnot, Size_eq_sum_keys set hset]
  · intro hnil
    exact ⟨_, Size_eq_sum_keys _ (NoNilChain_Remove set entry hset),
      sum_keys_Remove_nil set entry hnil⟩
  · intro hnot
    rw [Remove_not_nil_state set entry hnot, Size_eq_sum_keys set hset]

/-- Witness of C12: the set built from `{1,0}`, `{2,0}` has size 2; adding
`{1,1}` gives 3, adding `{1,0}` again leaves 2, removing `{1,0}` gives 1,
removing `{3,0}` leaves 2. -/
theorem Size_counts_elements_witness :
    NoNilChain (NewHashSet [(⟨1, 0⟩ : testComparable), ⟨2, 0⟩]) ∧
    Size (NewHashSet [(⟨1, 0⟩ : testComparable), ⟨2, 0⟩]) = .returned 2 ∧
    Size (Add (NewHashSet [(⟨1, 0⟩ : testComparable), ⟨2, 0⟩]) ⟨1, 1⟩).2 = .returned 3 ∧
    Size (Add (NewHashSet [(⟨1, 0⟩ : testComparable), ⟨2, 0⟩]) ⟨1, 0⟩).2 = .returned 2 ∧
    (∃ m : Nat, Size (Remove (NewHashSet [(⟨1, 0⟩ : testComparable), ⟨2, 0⟩]) ⟨1, 0⟩).2 =
      .returned m ∧ m + 1 = 2) ∧
    Size (Remove (NewHashSet [(⟨1, 0⟩ : testComparable), ⟨2, 0⟩]) ⟨3, 0⟩).2 = .returned 2 :=
  ⟨Reachable.noNilChain _ (Reachable.new _), by decide,
    ((Size_counts_elements (NewHashSet [(⟨1, 0⟩ : testComparable), ⟨2, 0⟩])
      (Reachable.noNilChain _ (Reachable.new _))).2 ⟨1, 1⟩ 2 (by decide)).1 (by decide),
    ((Size_counts_elements (NewHashSet [(⟨1, 0⟩ : testComparable), ⟨2, 0⟩])
      (Reachable.noNilChain _ (Reachable.new _))).2 ⟨1, 0⟩ 2 (by decide)).2.1 (by decide),
    ((Size_counts_elements (NewHashSet [(⟨1, 0⟩ : testComparable), ⟨2, 0⟩])
      (Reachable.noNilChain _ (Reachable.new _))).2 ⟨1, 0⟩ 2 (by decide)).2.2.1 (by decide),
    ((Size_counts_elements (NewHashSet [(⟨1, 0⟩ : testComparable), ⟨2, 0⟩])
      (Reachable.noNilChain _ (Reachable.new _))).2 ⟨3, 0⟩ 2 (by decide)).2.2.2 (by decide)⟩

/-! ## IsEmpty -/

theorem IsEmpty_iff_keys {α : Type} (set : hashSet α) :
    IsEmpty set = true ↔ set.set.keys = ∅ := by
  simp [IsEmpty]

/-- C14: `NewHashSet()` without arguments gives `IsEmpty() == true`,
`Size() == 0` and an empty `ToSlice()`; and in every state reached by calls of
`Add` and `Remove` no hash code maps to a nil chain, so that `IsEmpty()` is true
if and only if `Size() == 0`. -/
theorem IsEmpty_iff_Size_zero {α : Type} [Comparable α] (set : hashSet α)
    (hreach : Reachable set) :
    IsEmpty (NewHashSet ([] : List α)) = true ∧
    Size (NewHashSet ([] : List α)) = .returned 0 ∧
    ToSlice (NewHashSet ([] : List α)) = .returned [] ∧
    (∀ hashCode, set.set.lookup hashCode ≠ some []) ∧
    (IsEmpty set = true ↔ Size set = .returned 0) := by
  have hset := Reachable.noNilChain set hreach
  refine ⟨rfl, rfl, rfl, hset, ?_⟩
  rw [IsEmpty_iff_keys, Size_eq_sum_keys set hset]
  constructor
  · intro hkeys
    rw [hkeys, Finset.sum_empty]
  · intro hsum
    have hzero : Finset.sum set.set.keys (fun k => ((set.set.lookup k).getD []).length) = 0 :=
      Outcome.returned.inj hsum
    rw [Finset.sum_eq_zero_iff] at hzero
    apply Finset.eq_empty_of_forall_not_mem
    intro k hk
    obtain ⟨c, hc⟩ := Finmap.mem_iff.1 (Finmap.mem_keys.1 hk)
    have hlen := hzero k hk
    rw [hc, Option.getD_some, List.length_eq_zero] at hlen
    exact hset k (hlen ▸ hc)

/-- Witness of C14: the set built from `{1,0}` is not empty and its size is 1;
after `{1,0}` is removed it is empty and its size is 0. -/
theorem IsEmpty_iff_Size_zero_witness :
    Reachable (Remove (NewHashSet [(⟨1, 0⟩ : testComparable)]) ⟨1, 0⟩).2 ∧
    IsEmpty (NewHashSet [(⟨1, 0⟩ : testComparable)]) = false ∧
    Size (NewHashSet [(⟨1, 0⟩ : testComparable)]) = .returned 1 ∧
    IsEmpty (Remove (NewHashSet [(⟨1, 0⟩ : testComparable)]) ⟨1, 0⟩).2 = true ∧
    Size (Remove (NewHashSet [(⟨1, 0⟩ : testComparable)]) ⟨1, 0⟩).2 = .returned 0 :=
  ⟨Reachable.remove _ (Reachable.new _), by decide, by decide, by decide,
    (IsEmpty_iff_Size_zero (Remove (NewHashSet [(⟨1, 0⟩ : testComparable)]) ⟨1, 0⟩).2
      (Reachable.remove _ (Reachable.new _))).2.2.2.2.1 (by decide)⟩

/-! ## ToSlice -/

theorem mem_ToSlice_iff {α : Type} (set : hashSet α) (x : α) :
    x ∈ set.range.flatten ↔ ∃ k chain, set.set.lookup k = some chain ∧ x ∈ chain := by
  rw [List.mem_flatten]
  constructor
  · rintro ⟨chain, hchain, hx⟩
    obtain ⟨k, hk⟩ := set.mem_range chain hchain
    exact ⟨k, chain, hk, hx⟩
  · rintro ⟨k, chain, hk, hx⟩
    exact ⟨chain, set.mem_range_of_lookup k chain hk, hx⟩

/-- C11: if every element equals itself, then in every state reached from
`NewHashSet(...)` by calls of `Add` and `Remove`, `ToSlice()` and `Size()`
return, `len(ToSlice())` is `Size()`, and `Contains(x)` is true for every
element `x` of `ToSlice()`. -/
theorem ToSlice_complete {α : Type} [Comparable α] (hrefl : ∀ a : α, Equals a a = true)
    (set : hashSet α) (hreach : Reachable set) :
    ∃ (all : List α) (n : Nat), ToSlice set = .returned all ∧ Size set = .returned n ∧
      all.length = n ∧ ∀ x ∈ all, Contains set x = .returned true := by
  have hset := Reachable.noNilChain set hreach
  refine ⟨_, _, ToSlice_eq_join set hset, Size_eq_sum set hset, List.length_flatten _, ?_⟩
  intro x hx
  obtain ⟨k, chain, hk, hxc⟩ := (mem_ToSlice_iff set x).1 hx
  have hh := (Reachable.uniqueChains set hreach k chain hk).1 x hxc
  exact Contains_of_lookup set x x chain (by rw [hh]; exact hk) hxc (hrefl x)

/-- Witness of C11: the set built from `{1,0}`, `{2,0}`, `{1,1}`, from which
`{2,0}` is then removed. -/
theorem ToSlice_complete_witness :
    (∀ a : testComparable, Equals a a = true) ∧
    Reachable (Remove (NewHashSet [(⟨1, 0⟩ : testComparable), ⟨2, 0⟩, ⟨1, 1⟩]) ⟨2, 0⟩).2 ∧
    ToSlice (Remove (NewHashSet [(⟨1, 0⟩ : testComparable), ⟨2, 0⟩, ⟨1, 1⟩]) ⟨2, 0⟩).2 =
      .returned [⟨1, 0⟩, ⟨1, 1⟩] ∧
    Size (Remove (NewHashSet [(⟨1, 0⟩ : testComparable), ⟨2, 0⟩, ⟨1, 1⟩]) ⟨2, 0⟩).2 =
      .returned 2 ∧
    ∃ (all : List testComparable) (n : Nat),
      ToSlice (Remove (NewHashSet [(⟨1, 0⟩ : testComparable), ⟨2, 0⟩, ⟨1, 1⟩]) ⟨2, 0⟩).2 =
        .returned all ∧
      Size (Remove (NewHashSet [(⟨1, 0⟩ : testComparable), ⟨2, 0⟩, ⟨1, 1⟩]) ⟨2, 0⟩).2 =
        .returned n ∧
      all.length = n ∧
      ∀ x ∈ all,
        Contains (Remove (NewHashSet [(⟨1, 0⟩ : testComparable), ⟨2, 0⟩, ⟨1, 1⟩]) ⟨2, 0⟩).2 x =
          .returned true :=
  ⟨testComparable_lawful.refl, Reachable.remove _ (Reachable.new _), by decide, by decide,
    ToSlice_complete testComparable_lawful.refl _ (Reachable.remove _ (Reachable.new _))⟩

/-- C18: if `Equals` is an equivalence relation and equal elements have one hash
code, then in every state reached by calls of `Add` and `Remove`, `Contains(x)`
returns what a scan of all of `ToSlice()` for an element `s` with `s.Equals(x)`
finds: it is true if and only if there is such an element. -/
theorem Contains_iff_scan {α : Type} [Comparable α] (hlaw : LawfulComparable α)
    (set : hashSet α) (hreach : Reachable set) (x : α) :
    ∃ all : List α, ToSlice set = .returned all ∧
      Contains set x = .returned (all.any (fun s => Equals s x)) ∧
      (Contains set x = .returned true ↔ ∃ s ∈ all, Equals s x = true) := by
  have hset := Reachable.noNilChain set hreach
  have hscan : ∀ chain, set.set.lookup (HashCode x) = some chain →
      chain.any (fun s => Equals s x) = set.range.flatten.any (fun s => Equals s x) := by
    intro chain hchain
    rw [Bool.eq_iff_iff, List.any_eq_true, List.any_eq_true]
    constructor
    · rintro ⟨s, hs, hsx⟩
      exact ⟨s, (mem_ToSlice_iff set s).2 ⟨_, chain, hchain, hs⟩, hsx⟩
    · rintro ⟨s, hs, hsx⟩
      obtain ⟨k, c, hk, hsc⟩ := (mem_ToSlice_iff set s).1 hs
      have hh : k = HashCode x := by
        rw [← (Reachable.uniqueChains set hreach k c hk).1 s hsc]
        exact hlaw.hashCode s x hsx
      subst hh
      rw [hchain] at hk
      cases hk
      exact ⟨s, hsc, hsx⟩
  have hcontains : Contains set x = .returned (set.range.flatten.any (fun s => Equals s x)) := by
    rcases hl : set.set.lookup (HashCode x) with _ | chain
    · rw [Contains_of_noChain set x hl]
      congr 1
      symm
      rw [Bool.eq_false_iff]
      intro hany
      obtain ⟨s, hs, hsx⟩ := List.any_eq_true.1 hany
      obtain ⟨k, c, hk, hsc⟩ := (mem_ToSlice_iff set s).1 hs
      have hh : k = HashCode x := by
        rw [← (Reachable.uniqueChains set hreach k c hk).1 s hsc]
        exact hlaw.hashCode s x hsx
      subst hh
      rw [hl] at hk
      cases hk
    · cases chain with
      | nil => exact absurd hl (hset _)
      | cons data next =>
        rw [Contains_of_chain set x data next hl, hscan _ hl]
  refine ⟨_, ToSlice_eq_join set hset, hcontains, ?_⟩
  rw [hcontains, ← List.any_eq_true]
  constructor
  · intro h
    exact (Outcome.returned.inj h)
  · intro h
    rw [h]

/-- Witness of C18: the set built from `{1,0}`, `{2,0}`, `{1,1}` and the query
`{1,1}`. -/
theorem Contains_iff_scan_witness :
    LawfulComparable testComparable ∧
    Reachable (NewHashSet [(⟨1, 0⟩ : testComparable), ⟨2, 0⟩, ⟨1, 1⟩]) ∧
    Contains (NewHashSet [(⟨1, 0⟩ : testComparable), ⟨2, 0⟩, ⟨1, 1⟩]) ⟨1, 1⟩ =
      .returned true ∧
    ∃ all : List testComparable,
      ToSlice (NewHashSet [(⟨1, 0⟩ : testComparable), ⟨2, 0⟩, ⟨1, 1⟩]) = .returned all ∧
      Contains (NewHashSet [(⟨1, 0⟩ : testComparable), ⟨2, 0⟩, ⟨1, 1⟩]) ⟨1, 1⟩ =
        .returned (all.any (fun s => Equals s (⟨1, 1⟩ : testComparable))) ∧
      (Contains (NewHashSet [(⟨1, 0⟩ : testComparable), ⟨2, 0⟩, ⟨1, 1⟩]) ⟨1, 1⟩ =
          .returned true ↔
        ∃ s ∈ all, Equals s (⟨1, 1⟩ : testComparable) = true) :=
  ⟨testComparable_lawful, Reachable.new _, by decide,
    Contains_iff_scan testComparable_lawful _ (Reachable.new _) ⟨1, 1⟩⟩

/-! ## The ledger of a run -/

theorem hashSet.ofLedger_append {α : Type} [Comparable α] (live : List α) (e : α) :
    hashSet.ofLedger (live ++ [e]) =
      ⟨(hashSet.ofLedger live).set.insert (HashCode e)
        (((hashSet.ofLedger live).set.lookup (HashCode e)).getD [] ++ [e])⟩ := by
  simp [hashSet.ofLedger, List.foldl_append]

theorem bucket_append {α : Type} [Comparable α] (live : List α) (e : α) (k : Int) :
    bucket (live ++ [e]) k = if HashCode e = k then bucket live k ++ [e] else bucket live k := by
  by_cases hk : HashCode e = k
  · simp [bucket, List.filter_append, hk]
  · simp [bucket, List.filter_append, hk]

theorem hashSet.lookup_ofLedger {α : Type} [Comparable α] (live : List α) (k : Int) :
    (hashSet.ofLedger live).set.lookup k =
      if (bucket live k).isEmpty then none else some (bucket live k) := by
  induction live using List.reverseRecOn generalizing k with
  | nil => simp [hashSet.ofLedger, bucket]
  | append_singleton l e ih =>
    rw [hashSet.ofLedger_append, bucket_append]
    by_cases hk : HashCode e = k
    · subst hk
      rw [Finmap.lookup_insert, ih (HashCode e), if_pos rfl]
      cases hb : bucket l (HashCode e) <;> simp
    · rw [Finmap.lookup_insert_of_ne _ (Ne.symm hk), ih k, if_neg hk]

theorem bucket_eraseP_same {α : Type} [Comparable α] (live : List α) (entry : α) :
    bucket (live.eraseP (fun v => HashCode v == HashCode entry && Equals v entry))
        (HashCode entry) =
      (bucket live (HashCode entry)).eraseP (fun v => Equals v entry) := by
  have hfun : (fun v : α => HashCode v == HashCode entry && Equals v entry) =
      (fun v : α => Equals v entry && (HashCode v == HashCode entry)) := by
    funext v
    exact Bool.and_comm _ _
  rw [hfun]
  exact (List.eraseP_filter (p := fun v => Equals v entry)
    (fun v => HashCode v == HashCode entry) live).symm

theorem bucket_eraseP_other {α : Type} [Comparable α] (live : List α) (entry : α) (k : Int)
    (hk : k ≠ HashCode entry) :
    bucket (live.eraseP (fun v => HashCode v == HashCode entry && Equals v entry)) k =
      bucket live k := by
  induction live with
  | nil => rfl
  | cons a l ih =>
    cases ha : (HashCode a == HashCode entry && Equals a entry)
    · simp only [List.eraseP_cons, ha, cond_false]
      simp only [bucket, List.filter_cons] at ih ⊢
      rw [ih]
    · simp only [List.eraseP_cons, ha, cond_true]
      have hne : HashCode a ≠ k := by
        intro h
        simp only [Bool.and_eq_true, beq_iff_eq] at ha
        exact hk (h ▸ ha.1)
      simp [bucket, hne]

theorem hashSet.ext_lookup {α : Type} (a b : hashSet α)
    (h : ∀ k, a.set.lookup k = b.set.lookup k) : a = b := by
  cases a
  cases b
  exact congrArg hashSet.mk (Finmap.ext_lookup h)

theorem Add_ofLedger {α : Type} [Comparable α] (live : List α) (entry : α) :
    Add (hashSet.ofLedger live) entry =
      if (bucket live (HashCode entry)).any (fun v => Equals v entry) then
        (.returned (some ErrEntryExistsAlready), hashSet.ofLedger live)
      else (.returned none, hashSet.ofLedger (live ++ [entry])) := by
  have hl := hashSet.lookup_ofLedger live (HashCode entry)
  rw [hashSet.ofLedger_append]
  cases hb : bucket live (HashCode entry) with
  | nil =>
    rw [hb] at hl
    simp only [List.isEmpty_nil, if_true] at hl
    rw [Add_of_noChain _ entry hl, hl]
    simp
  | cons data next =>
    rw [hb] at hl
    simp only [List.isEmpty_cons, Bool.false_eq_true, if_false] at hl
    rw [Add_of_chain _ entry data next hl, hl]
    rfl

theorem Remove_ofLedger {α : Type} [Comparable α] (live : List α) (entry : α) :
    Remove (hashSet.ofLedger live) entry =
      if (bucket live (HashCode entry)).any (fun v => Equals v entry) then
        (.returned none, hashSet.ofLedger
          (live.eraseP (fun v => HashCode v == HashCode entry && Equals v entry)))
      else
        (if (bucket live (HashCode entry)).isEmpty then .returned (some ErrEntryDoesNotExist)
          else .nilDereference, hashSet.ofLedger live) := by
  have hl := hashSet.lookup_ofLedger live (HashCode entry)
  cases hb : bucket live (HashCode entry) with
  | nil =>
    rw [hb] at hl
    simp only [List.isEmpty_nil, if_true] at hl
    rw [Remove_of_noChain _ entry hl]
    simp
  | cons data next =>
    rw [hb] at hl
    simp only [List.isEmpty_cons, Bool.false_eq_true, if_false] at hl
    rw [Remove_of_chain _ entry data next hl]
    by_cases hc : ((data :: next).any fun v => Equals v entry) = true
    · rw [if_pos hc, if_pos hc]
      congr 1
      apply hashSet.ext_lookup
      intro k
      rw [hashSet.lookup_ofLedger]
      by_cases hk : k = HashCode entry
      · subst hk
        rw [bucket_eraseP_same, hb]
        cases he : List.eraseP (fun v => Equals v entry) (data :: next) with
        | nil => simp [Finmap.lookup_erase]
        | cons a l => simp [Finmap.lookup_insert]
      · rw [bucket_eraseP_other live entry k hk, ← hashSet.lookup_ofLedger]
        split
        · exact Finmap.lookup_erase_ne hk
        · exact Finmap.lookup_insert_of_ne _ hk
    · rw [if_neg hc, if_neg hc]
      simp

theorem History.step_ofLedger {α : Type} [Comparable α] (live : List α) (call : Call α) :
    (History.step (hashSet.ofLedger live, live) call).1 =
      hashSet.ofLedger (History.step (hashSet.ofLedger live, live) call).2 := by
  cases call with
  | add entry =>
    simp only [History.step, Add_ofLedger]
    by_cases hc : ((bucket live (HashCode entry)).any fun v => Equals v entry) = true
    · simp [hc]
    · simp [hc]
  | remove entry =>
    simp only [History.step, Remove_ofLedger]
    by_cases hc : ((bucket live (HashCode entry)).any fun v => Equals v entry) = true
    · simp [hc]
    · by_cases hb : (bucket live (HashCode entry)).isEmpty = true
      · simp [hc, hb]
      · simp [hc, hb]

theorem History.foldl_ofLedger {α : Type} [Comparable α] (calls : List (Call α))
    (state : hashSet α × List α) (h : state.1 = hashSet.ofLedger state.2) :
    (calls.foldl History.step state).1 = hashSet.ofLedger (calls.foldl History.step state).2 := by
  induction calls generalizing state with
  | nil => exact h
  | cons c cs ih =>
    apply ih
    obtain ⟨set, live⟩ := state
    simp only at h
    subst h
    exact History.step_ofLedger live c

theorem History.constructor_eq {α : Type} [Comparable α] (entries : List α)
    (state : hashSet α × List α) :
    entries.foldl (fun state entry => History.step state (.add entry)) state =
      (entries.map Call.add).foldl History.step state := by
  induction entries generalizing state with
  | nil => rfl
  | cons e es ih => exact ih _

theorem History.constructor_fst {α : Type} [Comparable α] (entries : List α)
    (state : hashSet α × List α) :
    (entries.foldl (fun state entry => History.step state (.add entry)) state).1 =
      entries.foldl (fun set entry => (Add set entry).2) state.1 := by
  induction entries generalizing state with
  | nil => rfl
  | cons e es ih => exact ih _

/-- The set of a run is the map that holds exactly the values of its ledger. -/
theorem history_ofLedger {α : Type} [Comparable α] (entries : List α) (calls : List (Call α)) :
    (history entries calls).1 = hashSet.ofLedger (history entries calls).2 := by
  unfold history
  apply History.foldl_ofLedger
  rw [History.constructor_eq]
  exact History.foldl_ofLedger _ _ rfl

theorem history_nil {α : Type} [Comparable α] (entries : List α) :
    (history entries []).1 = NewHashSet entries :=
  History.constructor_fst entries _

theorem history_append {α : Type} [Comparable α] (entries : List α) (calls : List (Call α))
    (call : Call α) :
    history entries (calls ++ [call]) = History.step (history entries calls) call := by
  simp [history, List.foldl_append]

theorem history_reachable {α : Type} [Comparable α] (entries : List α) (calls : List (Call α)) :
    Reachable (history entries calls).1 := by
  induction calls using List.reverseRecOn with
  | nil =>
    rw [history_nil]
    exact Reachable.new entries
  | append_singleton cs c ih =>
    rw [history_append]
    cases c with
    | add entry => exact Reachable.add entry ih
    | remove entry => exact Reachable.remove entry ih

theorem exists_history_of_reachable {α : Type} [Comparable α] (set : hashSet α)
    (h : Reachable set) : ∃ entries calls, set = (history entries calls).1 := by
  induction h with
  | new entries => exact ⟨entries, [], (history_nil entries).symm⟩
  | add entry _ ih =>
    obtain ⟨entries, calls, heq⟩ := ih
    exact ⟨entries, calls ++ [.add entry], by rw [history_append, heq]; rfl⟩
  | remove entry _ ih =>
    obtain ⟨entries, calls, heq⟩ := ih
    exact ⟨entries, calls ++ [.remove entry], by rw [history_append, heq]; rfl⟩

theorem NoNilChain_ofLedger {α : Type} [Comparable α] (live : List α) :
    NoNilChain (hashSet.ofLedger live) := by
  intro k
  rw [hashSet.lookup_ofLedger]
  cases hb : bucket live k <;> simp

theorem sum_keys_ofLedger {α M : Type} [Comparable α] [AddCommMonoid M]
    (f : linkedEntry α → M) (hnil : f [] = 0)
    (happend : ∀ (chain : linkedEntry α) (e : α), f (chain ++ [e]) = f chain + f [e])
    (live : List α) :
    Finset.sum (hashSet.ofLedger live).set.keys
        (fun k => f (((hashSet.ofLedger live).set.lookup k).getD [])) =
      (live.map (fun e => f [e])).sum := by
  induction live using List.reverseRecOn with
  | nil => simp [hashSet.ofLedger]
  | append_singleton l e ih =>
    rw [hashSet.ofLedger_append, sum_keys_insert, happend, List.map_append, List.sum_append,
      ← ih, sum_keys_split _ (HashCode e) f hnil]
    simp only [List.map_cons, List.map_nil, List.sum_cons, List.sum_nil, add_zero]
    rw [add_assoc, add_comm (f [e]), ← add_assoc]

theorem Size_ofLedger {α : Type} [Comparable α] (live : List α) :
    Size (hashSet.ofLedger live) = .returned live.length := by
  rw [Size_eq_sum_keys _ (NoNilChain_ofLedger live),
    sum_keys_ofLedger List.length rfl (fun c e => List.length_append c [e]) live]
  congr 1
  induction live with
  | nil => rfl
  | cons a l ih =>
    show 1 + (List.map (fun e => [e].length) l).sum = l.length + 1
    rw [ih]
    omega

theorem coe_flatten {α : Type} (chains : List (List α)) :
    Multiset.ofList chains.flatten = (chains.map Multiset.ofList).sum := by
  induction chains with
  | nil => rfl
  | cons c cs ih =>
    rw [List.flatten_cons, List.map_cons, List.sum_cons, ← ih]
    rfl

theorem ToSlice_ofLedger {α : Type} [Comparable α] (live : List α) :
    ∃ all : List α, ToSlice (hashSet.ofLedger live) = .returned all ∧ all.Perm live := by
  refine ⟨_, ToSlice_eq_join _ (NoNilChain_ofLedger live), ?_⟩
  rw [← Multiset.coe_eq_coe]
  show Multiset.ofList _ = Multiset.ofList live
  rw [coe_flatten, hashSet.sum_range,
    sum_keys_ofLedger Multiset.ofList rfl (fun c e => rfl) live]
  induction live with
  | nil => rfl
  | cons a l ih =>
    rw [List.map_cons, List.sum_cons, ih]
    rfl

theorem History.step_ledger_mem {α : Type} [Comparable α] (state : hashSet α × List α)
    (call : Call α) (x : α) (hx : x ∈ (History.step state call).2) :
    x ∈ state.2 ∨ call = .add x ∧ (Add state.1 x).1 = .returned none := by
  cases call with
  | add entry =>
    simp only [History.step] at hx
    by_cases hnil : (Add state.1 entry).1 = .returned none
    · rw [if_pos hnil] at hx
      rcases List.mem_append.1 hx with h | h
      · exact Or.inl h
      · rw [List.mem_singleton.1 h]
        exact Or.inr ⟨rfl, hnil⟩
    · rw [if_neg hnil] at hx
      exact Or.inl hx
  | remove entry =>
    simp only [History.step] at hx
    split at hx
    · exact Or.inl (List.mem_of_mem_eraseP hx)
    · exact Or.inl hx

theorem History.foldl_ledger_mem {α : Type} [Comparable α] (calls : List (Call α))
    (state : hashSet α × List α) (x : α) (hx : x ∈ (calls.foldl History.step state).2) :
    x ∈ state.2 ∨ Call.add x ∈ calls := by
  induction calls generalizing state with
  | nil => exact Or.inl hx
  | cons c cs ih =>
    rcases ih _ hx with h | h
    · rcases History.step_ledger_mem state c x h with h' | ⟨h', _⟩
      · exact Or.inl h'
      · exact Or.inr (h' ▸ List.mem_cons_self _ _)
    · exact Or.inr (List.mem_cons_of_mem _ h)

theorem history_ledger_mem {α : Type} [Comparable α] (entries : List α) (calls : List (Call α))
    (x : α) (hx : x ∈ (history entries calls).2) : x ∈ entries ∨ Call.add x ∈ calls := by
  unfold history at hx
  rcases History.foldl_ledger_mem calls _ x hx with h | h
  · rw [History.constructor_eq] at h
    rcases History.foldl_ledger_mem _ _ x h with h' | h'
    · simp at h'
    · obtain ⟨e, he, heq⟩ := List.mem_map.1 h'
      cases heq
      exact Or.inl he
  · exact Or.inr h

/-- C17: take any run `NewHashSet(e1, ..., en)` followed by calls of `Add` and
`Remove`, and keep a ledger beside it: a value is entered when its `Add` (in
the constructor or later) returns nil, and struck off when a `Remove` that
returns nil removes it.  Then `ToSlice()` returns exactly the values on the
ledger, each as often as it stands there, and the chain under each hash code is
the ledger's values with that hash code in the ledger's order.  Every value on
the ledger is a constructor argument or the entry of an `Add` call of the run.
Every reachable state is the state of such a run. -/
theorem Stored_values_are_ledger {α : Type} [Comparable α] :
    (∀ (entries : List α) (calls : List (Call α)),
      Reachable (history entries calls).1 ∧
      (∃ all : List α, ToSlice (history entries calls).1 = .returned all ∧
        all.Perm (history entries calls).2) ∧
      (∀ hashCode chain, (history entries calls).1.set.lookup hashCode = some chain →
        chain = bucket (history entries calls).2 hashCode) ∧
      (∀ x ∈ (history entries calls).2, x ∈ entries ∨ Call.add x ∈ calls)) ∧
    (∀ set : hashSet α, Reachable set → ∃ entries calls, set = (history entries calls).1) := by
  refine ⟨fun entries calls => ⟨history_reachable entries calls, ?_, ?_,
    history_ledger_mem entries calls⟩, exists_history_of_reachable⟩
  · rw [history_ofLedger]
    exact ToSlice_ofLedger _
  · intro k chain hk
    rw [history_ofLedger, hashSet.lookup_ofLedger] at hk
    split at hk
    · cases hk
    · exact (Option.some.inj hk).symm

/-- Witness of C17: the constructor is given `{1,0}`, `{1,0}`, `{2,0}`; then
`{1,1}` is added, `{1,0}` is removed and removed again.  The ledger and
`ToSlice()` hold `{2,0}` and `{1,1}`. -/
theorem Stored_values_are_ledger_witness :
    (history [(⟨1, 0⟩ : testComparable), ⟨1, 0⟩, ⟨2, 0⟩]
      [.add ⟨1, 1⟩, .remove ⟨1, 0⟩, .remove ⟨1, 0⟩]).2 = [⟨2, 0⟩, ⟨1, 1⟩] ∧
    ToSlice (history [(⟨1, 0⟩ : testComparable), ⟨1, 0⟩, ⟨2, 0⟩]
      [.add ⟨1, 1⟩, .remove ⟨1, 0⟩, .remove ⟨1, 0⟩]).1 = .returned [⟨1, 1⟩, ⟨2, 0⟩] ∧
    (∃ all : List testComparable,
      ToSlice (history [(⟨1, 0⟩ : testComparable), ⟨1, 0⟩, ⟨2, 0⟩]
        [.add ⟨1, 1⟩, .remove ⟨1, 0⟩, .remove ⟨1, 0⟩]).1 = .returned all ∧
      all.Perm (history [(⟨1, 0⟩ : testComparable), ⟨1, 0⟩, ⟨2, 0⟩]
        [.add ⟨1, 1⟩, .remove ⟨1, 0⟩, .remove ⟨1, 0⟩]).2) ∧
    ∃ entries calls,
      (Remove (NewHashSet [(⟨1, 0⟩ : testComparable)]) ⟨1, 0⟩).2 = (history entries calls).1 :=
  ⟨by decide, by decide,
    (Stored_values_are_ledger.1 [(⟨1, 0⟩ : testComparable), ⟨1, 0⟩, ⟨2, 0⟩]
      [.add ⟨1, 1⟩, .remove ⟨1, 0⟩, .remove ⟨1, 0⟩]).2.1,
    Stored_values_are_ledger.2 _ (Reachable.remove _ (Reachable.new _))⟩

/-! ## The constructor -/

theorem bucket_any_eq {α : Type} [Comparable α] (hlaw : LawfulComparable α) (live : List α)
    (entry : α) :
    (bucket live (HashCode entry)).any (fun v => Equals v entry) =
      live.any (fun v => Equals v entry) := by
  rw [Bool.eq_iff_iff, List.any_eq_true, List.any_eq_true]
  constructor
  · rintro ⟨v, hv, hve⟩
    exact ⟨v, (List.mem_filter.1 hv).1, hve⟩
  · rintro ⟨v, hv, hve⟩
    exact ⟨v, List.mem_filter.2 ⟨hv, by simp [hlaw.hashCode v entry hve]⟩, hve⟩

theorem History.constructor_ledger {α : Type} [Comparable α] (hlaw : LawfulComparable α)
    (entries : List α) (live : List α) :
    (entries.foldl (fun state entry => History.step state (.add entry))
        (hashSet.ofLedger live, live)).2 =
      entries.foldl
        (fun kept entry => if kept.any (fun r => Equals r entry) then kept else kept ++ [entry])
        live := by
  induction entries generalizing live with
  | nil => rfl
  | cons e es ih =>
    rw [List.foldl_cons, List.foldl_cons]
    have hstep : History.step (hashSet.ofLedger live, live) (.add e) =
        (hashSet.ofLedger (if live.any (fun r => Equals r e) then live else live ++ [e]),
          if live.any (fun r => Equals r e) then live else live ++ [e]) := by
      simp only [History.step, Add_ofLedger, bucket_any_eq hlaw]
      by_cases hc : (live.any fun r => Equals r e) = true
      · simp [hc]
      · simp [hc]
    rw [hstep, ih]

theorem NewHashSet_ofLedger {α : Type} [Comparable α] (hlaw : LawfulComparable α)
    (entries : List α) : NewHashSet entries = hashSet.ofLedger (keptEntries entries) := by
  rw [← history_nil, history_ofLedger]
  congr 1
  exact History.constructor_ledger hlaw entries []

theorem keptFold_spec {α : Type} [Comparable α] (hrefl : ∀ a : α, Equals a a = true)
    (entries kept : List α) (hkept : kept.Pairwise (fun a b => Equals a b = false)) :
    (entries.foldl
        (fun kept entry => if kept.any (fun r => Equals r entry) then kept else kept ++ [entry])
        kept).Pairwise (fun a b => Equals a b = false) ∧
    (∀ e ∈ entries, ∃ r ∈ entries.foldl
        (fun kept entry => if kept.any (fun r => Equals r entry) then kept else kept ++ [entry])
        kept, Equals r e = true) ∧
    (∀ x ∈ kept, x ∈ entries.foldl
        (fun kept entry => if kept.any (fun r => Equals r entry) then kept else kept ++ [entry])
        kept) ∧
    ∃ added : List α, added.Sublist entries ∧
      entries.foldl
        (fun kept entry => if kept.any (fun r => Equals r entry) then kept else kept ++ [entry])
        kept = kept ++ added := by
  induction entries generalizing kept with
  | nil => exact ⟨hkept, by simp, fun x hx => hx, [], List.Sublist.refl _, by simp⟩
  | cons e es ih =>
    rw [List.foldl_cons]
    by_cases hc : (kept.any fun r => Equals r e) = true
    · rw [if_pos hc]
      obtain ⟨hp, hcover, hmono, added, hsub, heq⟩ := ih kept hkept
      refine ⟨hp, ?_, hmono, added, hsub.cons e, heq⟩
      intro x hx
      rcases List.mem_cons.1 hx with h | h
      · obtain ⟨r, hr, hre⟩ := List.any_eq_true.1 hc
        exact ⟨r, hmono r hr, h ▸ hre⟩
      · exact hcover x h
    · rw [if_neg hc]
      have hnew : (kept ++ [e]).Pairwise (fun a b => Equals a b = false) := by
        refine List.pairwise_append.2 ⟨hkept, List.pairwise_singleton _ _, ?_⟩
        intro a ha b hb
        rw [List.mem_singleton.1 hb]
        cases hq : Equals a e
        · rfl
        · exact absurd (List.any_eq_true.2 ⟨a, ha, hq⟩) hc
      obtain ⟨hp, hcover, hmono, added, hsub, heq⟩ := ih (kept ++ [e]) hnew
      refine ⟨hp, ?_, fun x hx => hmono x (List.mem_append_left _ hx), e :: added,
        hsub.cons₂ e, by rw [heq]; simp⟩
      intro x hx
      rcases List.mem_cons.1 hx with h | h
      · exact ⟨e, hmono e (List.mem_append_right _ (List.mem_singleton_self e)), h ▸ hrefl e⟩
      · exact hcover x h

theorem keptEntries_length {α : Type} [Comparable α] (hlaw : LawfulComparable α)
    (entries : List α) : (keptEntries entries).length = classCount hlaw entries := by
  obtain ⟨hp, hcover, _, added, hsub, heq⟩ :=
    keptFold_spec hlaw.refl entries [] List.Pairwise.nil
  letI : DecidableEq (Quotient hlaw.setoid) :=
    @Quotient.decidableEq α hlaw.setoid
      (fun a b => inferInstanceAs (Decidable (Equals a b = true)))
  have hnodup : ((keptEntries entries).map (Quotient.mk hlaw.setoid)).Nodup := by
    rw [List.Nodup, List.pairwise_map]
    refine List.Pairwise.imp ?_ hp
    intro a b hab hq
    have : Equals a b = true := Quotient.exact hq
    rw [hab] at this
    cases this
  have hmem : ∀ q, q ∈ (entries.map (Quotient.mk hlaw.setoid)).dedup ↔
      q ∈ (keptEntries entries).map (Quotient.mk hlaw.setoid) := by
    intro q
    rw [List.mem_dedup, List.mem_map, List.mem_map]
    constructor
    · rintro ⟨e, he, rfl⟩
      obtain ⟨r, hr, hre⟩ := hcover e he
      exact ⟨r, hr, Quotient.sound hre⟩
    · rintro ⟨r, hr, rfl⟩
      have hr' : r ∈ ([] : List α) ++ added := heq ▸ hr
      exact ⟨r, hsub.subset (by simpa using hr'), rfl⟩
  have hperm := (List.perm_ext_iff_of_nodup (List.nodup_dedup _) hnodup).2 hmem
  have hlen := hperm.length_eq
  rw [List.length_map] at hlen
  exact hlen.symm

/-- C13: `NewHashSet(e1, ..., en)` is the state after `Add(e1)`, ..., `Add(en)` in
order on the empty set, each result discarded.  If `Equals` is an equivalence
relation and equal elements have one hash code, the set then holds the
arguments without those that equal an earlier one (the earlier one is kept),
and `Size()` is the number of equivalence classes among the arguments. -/
theorem NewHashSet_keeps_first_of_each_class {α : Type} [Comparable α]
    (hlaw : LawfulComparable α) (entries : List α) :
    NewHashSet entries = entries.foldl (fun set entry => (Add set entry).2) ⟨∅⟩ ∧
    (∃ all : List α, ToSlice (NewHashSet entries) = .returned all ∧
      all.Perm (keptEntries entries)) ∧
    (∀ hashCode chain, (NewHashSet entries).set.lookup hashCode = some chain →
      chain = bucket (keptEntries entries) hashCode) ∧
    Size (NewHashSet entries) = .returned (keptEntries entries).length ∧
    Size (NewHashSet entries) = .returned (classCount hlaw entries) ∧
    (keptEntries entries).Sublist entries ∧
    (keptEntries entries).Pairwise (fun a b => Equals a b = false) ∧
    (∀ e ∈ entries, ∃ r ∈ keptEntries entries, Equals r e = true) := by
  obtain ⟨hp, hcover, _, added, hsub, heq⟩ :=
    keptFold_spec hlaw.refl entries [] List.Pairwise.nil
  refine ⟨rfl, ?_, ?_, ?_, ?_, ?_, hp, hcover⟩
  · rw [NewHashSet_ofLedger hlaw]
    exact ToSlice_ofLedger _
  · intro k chain hk
    rw [NewHashSet_ofLedger hlaw, hashSet.lookup_ofLedger] at hk
    split at hk
    · cases hk
    · exact (Option.some.inj hk).symm
  · rw [NewHashSet_ofLedger hlaw, Size_ofLedger]
  · rw [NewHashSet_ofLedger hlaw, Size_ofLedger, keptEntries_length hlaw]
  · have : keptEntries entries = added := by
      unfold keptEntries
      rw [heq]
      rfl
    rw [this]
    exact hsub

/-- Witness of C13: the constructor is given `{1,0}`, `{1,0}`, `{2,0}`, `{1,1}`,
`{2,0}`; three classes, three elements kept. -/
theorem NewHashSet_keeps_first_of_each_class_witness :
    LawfulComparable testComparable ∧
    keptEntries [(⟨1, 0⟩ : testComparable), ⟨1, 0⟩, ⟨2, 0⟩, ⟨1, 1⟩, ⟨2, 0⟩] =
      [⟨1, 0⟩, ⟨2, 0⟩, ⟨1, 1⟩] ∧
    classCount testComparable_lawful
      [(⟨1, 0⟩ : testComparable), ⟨1, 0⟩, ⟨2, 0⟩, ⟨1, 1⟩, ⟨2, 0⟩] = 3 ∧
    ToSlice (NewHashSet [(⟨1, 0⟩ : testComparable), ⟨1, 0⟩, ⟨2, 0⟩, ⟨1, 1⟩, ⟨2, 0⟩]) =
      .returned [⟨1, 0⟩, ⟨1, 1⟩, ⟨2, 0⟩] ∧
    Size (NewHashSet [(⟨1, 0⟩ : testComparable), ⟨1, 0⟩, ⟨2, 0⟩, ⟨1, 1⟩, ⟨2, 0⟩]) =
      .returned (classCount testComparable_lawful
        [(⟨1, 0⟩ : testComparable), ⟨1, 0⟩, ⟨2, 0⟩, ⟨1, 1⟩, ⟨2, 0⟩]) :=
  ⟨testComparable_lawful, by decide, by decide, by decide,
    (NewHashSet_keeps_first_of_each_class testComparable_lawful
      [(⟨1, 0⟩ : testComparable), ⟨1, 0⟩, ⟨2, 0⟩, ⟨1, 1⟩, ⟨2, 0⟩]).2.2.2.2.1⟩

end GoHashSet
